import Mathlib

/-!
Verification development for the `fraction` crate (src/src/fraction.rs):
a bounded rational value type with IEEE-754-like special categories and a
continued-fraction best-approximation engine (`shrink`).

The Rust code is shallowly embedded: `u64`/`u32` values become `Nat`,
`i32`/`i64`/`i128` values become `Int` with explicit wrapping where the
source casts, and the one genuinely fallible routine (the `shrink` loop,
whose division would panic on a zero denominator) returns an `Option`,
`none` marking the panic.  Loops are expressed with an explicit fuel that
is provably sufficient, so every definition is executable.
-/

/-- LIMITER from the source: `i32::MAX as u64`, i.e. `2^31 - 1`. -/
def LIMITER : Nat := 2147483647

/-- the value `i32::MAX`. -/
def I32_MAX : Int := 2147483647

/-- the value `i32::MIN`. -/
def I32_MIN : Int := -2147483648

/-- two's-complement truncation to 32 bits, modelling a Rust `as i32` cast. -/
def wrap32 (z : Int) : Int := (z + 2147483648) % 4294967296 - 2147483648

/-- reinterpretation of an integer as `u64`, modelling a Rust `as u64` cast. -/
def wrapU64 (z : Int) : Nat := (z % 18446744073709551616).toNat

/-- the `Type` enum of the source (renamed, `Type` is taken in Lean). -/
inductive FType where
  | Normal
  | Infinity
  | NegInfinity
  | Zero
  | NaN
deriving DecidableEq, Repr

/-- the `ConversionError` enum of the source. -/
inductive ConversionError where
  | OutOfRangeError
  | NaNConversion
  | InfiniteConversion
deriving DecidableEq, Repr

/-- the `Fraction` struct: `nume: i32, deno: i32, frac_type: Type`. -/
structure Fraction where
  nume : Int
  deno : Int
  frac_type : FType
deriving DecidableEq, Repr

namespace Fraction

/-- constant `INFINITY = { nume: i32::MAX, deno: 1, frac_type: Infinity }`. -/
def INFINITY : Fraction := ⟨I32_MAX, 1, .Infinity⟩

/-- constant `NEG_INFINITY = { nume: i32::MIN, deno: 1, frac_type: NegInfinity }`. -/
def NEG_INFINITY : Fraction := ⟨I32_MIN, 1, .NegInfinity⟩

/-- constant `NAN = { nume: 0, deno: 0, frac_type: NaN }`. -/
def NAN : Fraction := ⟨0, 0, .NaN⟩

/-- constant `ZERO = { nume: 0, deno: 1, frac_type: Zero }`. -/
def ZERO : Fraction := ⟨0, 1, .Zero⟩

/-- constant `MAX = { nume: i32::MAX - 1, deno: 1, frac_type: Normal }`. -/
def MAX : Fraction := ⟨I32_MAX - 1, 1, .Normal⟩

/-- constant `MIN = { nume: i32::MIN + 1, deno: 1, frac_type: Normal }`. -/
def MIN : Fraction := ⟨I32_MIN + 1, 1, .Normal⟩

/-- constant `MIN_POSITIVE = { nume: 1, deno: i32::MAX, frac_type: Normal }`. -/
def MIN_POSITIVE : Fraction := ⟨1, I32_MAX, .Normal⟩

/-- `determine_frac_type` from the source: classify a raw `(nume, deno)` pair.
The source matches on `nume.signum()` when `deno == 0` and on the sentinel
values `i32::MAX` / `i32::MIN` when `deno == 1`. -/
def determine_frac_type (nume deno : Int) : FType :=
  if deno = 0 then
    if nume.sign = 1 then .Infinity
    else if nume.sign = -1 then .NegInfinity
    else .NaN
  else if nume = 0 then .Zero
  else if deno = 1 then
    if nume = I32_MAX then .Infinity
    else if nume = I32_MIN then .NegInfinity
    else .Normal
  else .Normal

end Fraction

/-- the Euclid loop of the source's generic `gcd`, at `T = u64`
(`while b != 0 { (a, b) = (b, a % b) }; a`), with an explicit fuel.
The fuel only bounds the iteration count; `b` strictly decreases each
round, so `b + 1` rounds always suffice (see `gcdFuel_eq`). -/
def gcdFuel : Nat → Nat → Nat → Nat
  | 0, a, _ => a
  | fuel + 1, a, b => if b = 0 then a else gcdFuel fuel b (a % b)

/-- `Fraction::gcd` instantiated at `u64`. -/
def gcdNat (a b : Nat) : Nat := gcdFuel (b + 1) a b

/-- the same Euclid loop at `T = i64` (Rust `%` on `i64` truncates toward
zero, which is `Int.tmod`). -/
def gcdIntFuel : Nat → Int → Int → Int
  | 0, a, _ => a
  | fuel + 1, a, b => if b = 0 then a else gcdIntFuel fuel b (Int.tmod a b)

/-- `Fraction::gcd` instantiated at `i64`. -/
def gcdInt (a b : Int) : Int := gcdIntFuel (b.natAbs + 1) a b

/-- `Fraction::lcm` at `i64`: returns `(b / g, a / g, g)` where `g = gcd(a, b)`
(Rust `/` on `i64` truncates toward zero, which is `Int.tdiv`). -/
def lcmInt (a b : Int) : Int × Int × Int :=
  let g := gcdInt a b
  (Int.tdiv b g, Int.tdiv a g, g)

/-- the mutable state of `shrink`'s convergent loop. -/
structure ShrinkState where
  p0 : Nat
  q0 : Nat
  p1 : Nat
  q1 : Nat
  nume : Nat
  deno : Nat
deriving DecidableEq, Repr

/-- the `loop { ... }` of `Fraction::shrink`, with an explicit fuel.
In Rust the division `nume / deno` panics when `deno == 0`; that case is
modelled as `none`.  The fuel only bounds the iteration count: `deno`
strictly decreases every round, so `deno + 1` rounds always suffice and
the fuel-exhaustion `none` at fuel 0 is dead code (see `shrinkLoop_sound`). -/
def shrinkLoop : Nat → Nat → Nat → Nat → Nat → Nat → Nat → Option ShrinkState
  | 0, _, _, _, _, _, _ => none
  | fuel + 1, p0, q0, p1, q1, nume, deno =>
    if deno = 0 then none
    else
      let q := nume / deno
      let p2 := p0 + q * p1
      let q2 := q0 + q * q1
      if LIMITER < p2 ∨ LIMITER < q2 then some ⟨p0, q0, p1, q1, nume, deno⟩
      else shrinkLoop fuel p1 q1 p2 q2 deno (nume - q * deno)

/-- the tail of `Fraction::shrink` after the loop breaks: the two early
returns for `q_1 == 0` (value beyond `LIMITER`, return `(i32::MAX as u32, 1)`)
and `p_1 == 0` (value below `1/LIMITER`, return `(0, 1)`), then the choice
between the last convergent and the maximal semiconvergent by exact
cross-multiplied deviation comparison in `i128`.  The Rust `k_q.min(k_p).max(0)`
is `min k_q k_p` (the `.max(0)` is a no-op on unsigned values). -/
def shrinkFinish (nume_abs deno_abs p0 q0 p1 q1 : Nat) : Nat × Nat :=
  if q1 = 0 then (2147483647, 1)
  else
    let k_q := (LIMITER - q0) / q1
    if p1 = 0 then (0, 1)
    else
      let k_p := (LIMITER - p0) / p1
      let k := min k_q k_p
      let nume_1 := p1
      let deno_1 := q1
      let nume_2 := p0 + k * p1
      let deno_2 := q0 + k * q1
      let d_1 := ((nume_1 : Int) * (deno_abs : Int) - (nume_abs : Int) * (deno_1 : Int)).natAbs
      let d_2 := ((nume_2 : Int) * (deno_abs : Int) - (nume_abs : Int) * (deno_2 : Int)).natAbs
      if d_1 * deno_2 ≤ d_2 * deno_1 then (nume_1, deno_1) else (nume_2, deno_2)

/-- `Fraction::shrink`: identity on pairs already within bound, otherwise the
continued-fraction convergent search.  `none` models the Rust panic (division
by zero inside the loop), which `shrinkLoop_sound` proves unreachable for the
coprime pairs the callers pass. -/
def shrink (nume deno : Nat) : Option (Nat × Nat) :=
  if nume ≤ LIMITER ∧ deno ≤ LIMITER then some (nume, deno)
  else
    match shrinkLoop (deno + 1) 0 1 1 0 nume deno with
    | none => none
    | some s => some (shrinkFinish nume deno s.p0 s.q0 s.p1 s.q1)

namespace Fraction

/-- `Fraction::sign`: the sign as a `Fraction` (`±1`, `ZERO`, or `NAN`). -/
def sign (f : Fraction) : Fraction :=
  match f.frac_type with
  | .NaN => NAN
  | .Zero => ZERO
  | .Infinity => ⟨1, 1, .Normal⟩
  | .NegInfinity => ⟨-1, 1, .Normal⟩
  | .Normal => if 0 ≤ f.nume then ⟨1, 1, .Normal⟩ else ⟨-1, 1, .Normal⟩

/-- `Fraction::i32_sign`: `0` for `NaN`/`Zero`, `±1` for the infinities, and
for `Normal` the test `if self.nume > 0 { 1 } else { -1 }`. -/
def i32_sign (f : Fraction) : Int :=
  match f.frac_type with
  | .NaN => 0
  | .Zero => 0
  | .Infinity => 1
  | .NegInfinity => -1
  | .Normal => if 0 < f.nume then 1 else -1

/-- `Fraction::is_positive`. -/
def is_positive (f : Fraction) : Bool :=
  match f.frac_type with
  | .NegInfinity | .NaN | .Zero => false
  | .Infinity => true
  | .Normal => 0 < f.nume

/-- `Fraction::is_negative`. -/
def is_negative (f : Fraction) : Bool :=
  match f.frac_type with
  | .Infinity | .NaN | .Zero => false
  | .NegInfinity => true
  | .Normal => f.nume < 0

/-- `Fraction::is_zero`. -/
def is_zero (f : Fraction) : Bool := f.frac_type = .Zero

/-- `Fraction::is_infinity`. -/
def is_infinity (f : Fraction) : Bool := f.frac_type = .Infinity

/-- `Fraction::is_neg_infinity`. -/
def is_neg_infinity (f : Fraction) : Bool := f.frac_type = .NegInfinity

/-- `Fraction::is_nan`. -/
def is_nan (f : Fraction) : Bool := f.frac_type = .NaN

/-- `Fraction::is_normal`. -/
def is_normal (f : Fraction) : Bool := f.frac_type = .Normal

/-- `Fraction::abs`.  The `i32::abs` of the source would panic at `i32::MIN`;
the absolute value here is total (no reachable `Normal` value holds
`i32::MIN`, see the invariant lemmas). -/
def abs (f : Fraction) : Fraction :=
  match f.frac_type with
  | .NegInfinity | .Infinity => INFINITY
  | .NaN => NAN
  | .Zero => ZERO
  | .Normal => ⟨|f.nume|, f.deno, f.frac_type⟩

/-- `Fraction::reciprocal`: swaps numerator and denominator for `Normal`
values keeping the stored tag, and maps the special categories directly. -/
def reciprocal (f : Fraction) : Fraction :=
  match f.frac_type with
  | .Infinity => ZERO
  | .NegInfinity => ZERO
  | .NaN => NAN
  | .Zero => INFINITY
  | .Normal => ⟨|f.deno| * f.i32_sign, |f.nume|, f.frac_type⟩

/-- `Fraction::get_add_type`: the addition category table (match arms in
source order; Lean `match` shares Rust's first-match semantics). -/
def get_add_type (x y : Fraction) : FType :=
  match x.frac_type, y.frac_type with
  | .NaN, _ | _, .NaN => .NaN
  | .Infinity, .NegInfinity | .NegInfinity, .Infinity => .NaN
  | .Infinity, _ | _, .Infinity => .Infinity
  | .NegInfinity, _ | _, .NegInfinity => .NegInfinity
  | .Zero, .Zero => .Zero
  | _, _ => .Normal

/-- `Fraction::get_mul_type`: the multiplication category table. -/
def get_mul_type (x y : Fraction) : FType :=
  match x.frac_type, y.frac_type with
  | .NaN, _ | _, .NaN => .NaN
  | .Infinity, .Zero | .NegInfinity, .Zero
  | .Zero, .Infinity | .Zero, .NegInfinity => .NaN
  | .Infinity, .Infinity | .NegInfinity, .NegInfinity => .Infinity
  | .Infinity, .NegInfinity | .NegInfinity, .Infinity => .NegInfinity
  | .Zero, _ | _, .Zero => .Zero
  | .Normal, .Infinity | .Infinity, .Normal =>
    if x.is_negative ≠ y.is_negative then .NegInfinity else .Infinity
  | .Normal, .NegInfinity | .NegInfinity, .Normal =>
    if x.is_negative ≠ y.is_negative then .Infinity else .NegInfinity
  | .Normal, .Normal => .Normal

/-- `Fraction::normal_add`: exact addition in `i64` via the lcm cofactors,
sign extraction, gcd reduction, then `shrink`. -/
def normal_add (x y : Fraction) : Option (Int × Int) :=
  let a := x.nume
  let b := x.deno
  let c := y.nume
  let d := y.deno
  let efg := lcmInt b d
  let e := efg.1
  let f := efg.2.1
  let gcd_bd := efg.2.2
  let nume := a * e + c * f
  let deno := e * f * gcd_bd
  let sign := nume.sign
  let u_num := nume.natAbs
  let u_den := wrapU64 deno
  let g := gcdNat u_num u_den
  match shrink (u_num / g) (u_den / g) with
  | none => none
  | some (n, dd) => some (wrap32 (n : Int) * sign, wrap32 (dd : Int))

/-- `Fraction::normal_mul`: cross-cancellation by `gcd(a,d)` and `gcd(b,c)`,
unsigned product, then `shrink`, then reapplication of the signs. -/
def normal_mul (x y : Fraction) : Option (Int × Int) :=
  let a := x.nume.natAbs
  let b := x.deno.natAbs
  let c := y.nume.natAbs
  let d := y.deno.natAbs
  let gcd_ad := gcdNat a d
  let gcd_bc := gcdNat b c
  let a2 := a / gcd_ad
  let d2 := d / gcd_ad
  let b2 := b / gcd_bc
  let c2 := c / gcd_bc
  match shrink (a2 * c2) (b2 * d2) with
  | none => none
  | some (n, dd) => some (wrap32 (n : Int) * x.i32_sign * y.i32_sign, wrap32 (dd : Int))

/-- `Fraction::new`: classify, and in the `Normal` case normalize the sign,
reduce by gcd, `shrink`, and re-classify the result. -/
def new (nume deno : Int) : Option Fraction :=
  match determine_frac_type nume deno with
  | .Infinity => some INFINITY
  | .NegInfinity => some NEG_INFINITY
  | .NaN => some NAN
  | .Zero => some ZERO
  | .Normal =>
    let sign := nume.sign * deno.sign
    let numeA := nume.natAbs
    let denoA := deno.natAbs
    let g := gcdNat numeA denoA
    match shrink (numeA / g) (denoA / g) with
    | none => none
    | some (n, d) =>
      some ⟨wrap32 (n : Int) * sign, wrap32 (d : Int),
        determine_frac_type (wrap32 (n : Int) * sign) (wrap32 (d : Int))⟩

/-- the `Neg` impl. -/
def neg (f : Fraction) : Fraction :=
  match f.frac_type with
  | .Infinity => NEG_INFINITY
  | .NegInfinity => INFINITY
  | .NaN => NAN
  | .Zero => ZERO
  | .Normal => ⟨-f.nume, f.deno, .Normal⟩

/-- the `Add` impl: dispatch on `get_add_type`, `normal_add` on the
`Normal` path, re-classifying the produced pair. -/
def add (x y : Fraction) : Option Fraction :=
  match get_add_type x y with
  | .Infinity => some INFINITY
  | .NegInfinity => some NEG_INFINITY
  | .NaN => some NAN
  | .Zero => some ZERO
  | .Normal =>
    match normal_add x y with
    | none => none
    | some (n, d) => some ⟨n, d, determine_frac_type n d⟩

/-- the `Sub` impl: `self + (-rhs)`. -/
def sub (x y : Fraction) : Option Fraction := add x (neg y)

/-- the `Mul` impl: dispatch on `get_mul_type`, `normal_mul` on the
`Normal` path. -/
def mul (x y : Fraction) : Option Fraction :=
  match get_mul_type x y with
  | .Infinity => some INFINITY
  | .NegInfinity => some NEG_INFINITY
  | .NaN => some NAN
  | .Zero => some ZERO
  | .Normal =>
    match normal_mul x y with
    | none => none
    | some (n, d) => some ⟨n, d, determine_frac_type n d⟩

/-- the `Div` impl: `self * rhs.reciprocal()`. -/
def div (x y : Fraction) : Option Fraction := mul x (reciprocal y)

/-- the `AddAssign` impl (the mutated `*self` is returned as the value). -/
def add_assign (x y : Fraction) : Option Fraction :=
  match get_add_type x y with
  | .Infinity => some INFINITY
  | .NegInfinity => some NEG_INFINITY
  | .NaN => some NAN
  | .Zero => some ZERO
  | .Normal =>
    match normal_add x y with
    | none => none
    | some (n, d) => some ⟨n, d, determine_frac_type n d⟩

/-- the `SubAssign` impl: `*self += -rhs`. -/
def sub_assign (x y : Fraction) : Option Fraction := add_assign x (neg y)

/-- the `MulAssign` impl.  Note: the source dispatches on `get_add_type`
(not `get_mul_type`) and then runs `normal_mul` on the `Normal` path; the
embedding mirrors that faithfully. -/
def mul_assign (x y : Fraction) : Option Fraction :=
  match get_add_type x y with
  | .Infinity => some INFINITY
  | .NegInfinity => some NEG_INFINITY
  | .NaN => some NAN
  | .Zero => some ZERO
  | .Normal =>
    match normal_mul x y with
    | none => none
    | some (n, d) => some ⟨n, d, determine_frac_type n d⟩

/-- the `DivAssign` impl: `*self *= rhs.reciprocal()`. -/
def div_assign (x y : Fraction) : Option Fraction := mul_assign x (reciprocal y)

/-- the `PartialOrd::partial_cmp` impl (match arms in source order,
including the `(Normal, NegInfinity) => Less` arm as written). -/
def fracCmp (x y : Fraction) : Option Ordering :=
  match x.frac_type, y.frac_type with
  | .NaN, _ | _, .NaN => none
  | .Infinity, .NegInfinity | .Infinity, .Normal | .Infinity, .Zero => some .gt
  | .Infinity, .Infinity => some .eq
  | .NegInfinity, .Infinity | .NegInfinity, .Normal | .NegInfinity, .Zero => some .lt
  | .NegInfinity, .NegInfinity => some .eq
  | .Normal, .Infinity => some .lt
  | .Normal, .NegInfinity => some .lt
  | .Normal, _ | .Zero, _ =>
    some (compare (x.nume * y.deno) (x.deno * y.nume))

/-- the `From` impls generated by `impl_from_safe` (`u8`, `u16`, `i8`, `i16`):
down-cast to `i32` (exact for these source ranges), then classify; only the
`Zero` and `Normal` outcomes are mapped, everything else becomes `NAN`. -/
def from_safe (v : Int) : Fraction :=
  let value := wrap32 v
  match determine_frac_type value 1 with
  | .Zero => ZERO
  | .Normal => ⟨value, 1, .Normal⟩
  | _ => NAN

/-- the `From` impls generated by `impl_from_unsigned_unsafe`
(`i32`, `u32`, `u64`, `u128`): down-cast to `i32` (wrapping), classify, and
map `Zero`, `Infinity` and `Normal`; `NegInfinity` (a wrapped `i32::MIN`)
falls into the `_ => NAN` arm. -/
def from_unsigned_unchecked (v : Int) : Fraction :=
  let value := wrap32 v
  match determine_frac_type value 1 with
  | .Zero => ZERO
  | .Infinity => INFINITY
  | .Normal => ⟨value, 1, .Normal⟩
  | _ => NAN

/-- the `From` impls generated by `impl_from_signed_unsafe` (`i64`, `i128`):
down-cast to `i32` (wrapping), classify, and map `Zero`, `Infinity`,
`NegInfinity` and `Normal`; only `NaN` (unreachable for `deno = 1`) falls
into the `_ => NAN` arm. -/
def from_signed_unchecked (v : Int) : Fraction :=
  let value := wrap32 v
  match determine_frac_type value 1 with
  | .Zero => ZERO
  | .Infinity => INFINITY
  | .NegInfinity => NEG_INFINITY
  | .Normal => ⟨value, 1, .Normal⟩
  | _ => NAN

/-- the `TryFrom` impls generated by
`impl_try_from_for_integer_with_lower_capacity` (`i8`, `i16`, `u8`, `u16`),
parameterized by the target range `[tmin, tmax]`; Rust `/` on `i32`
truncates toward zero (`Int.tdiv`). -/
def try_from_lower (tmin tmax : Int) (f : Fraction) : Except ConversionError Int :=
  match f.frac_type with
  | .Infinity | .NegInfinity => .error .InfiniteConversion
  | .NaN => .error .NaNConversion
  | .Zero => .ok 0
  | .Normal =>
    let integer := Int.tdiv f.nume f.deno
    if tmin ≤ integer ∧ integer ≤ tmax then .ok integer else .error .OutOfRangeError

/-- the `TryFrom` impls generated by
`impl_try_from_for_unsigned_integer_with_greater_capacity` (`u32`, `u64`, `u128`). -/
def try_from_unsigned_greater (f : Fraction) : Except ConversionError Int :=
  match f.frac_type with
  | .Infinity | .NegInfinity => .error .InfiniteConversion
  | .NaN => .error .NaNConversion
  | .Zero => .ok 0
  | .Normal =>
    let integer := Int.tdiv f.nume f.deno
    if 0 ≤ integer then .ok integer else .error .OutOfRangeError

/-- the `TryFrom` impls generated by
`impl_try_from_for_signed_integer_with_greater_capacity` (`i32`, `i64`, `i128`). -/
def try_from_signed_greater (f : Fraction) : Except ConversionError Int :=
  match f.frac_type with
  | .Infinity | .NegInfinity => .error .InfiniteConversion
  | .NaN => .error .NaNConversion
  | .Zero => .ok 0
  | .Normal => .ok (Int.tdiv f.nume f.deno)

/-- the structural invariant maintained by every value reachable through the
public interface: each category tag comes with its canonical representation
(`Normal` values are reduced, sign-in-numerator, within `LIMITER`). -/
def Inv (f : Fraction) : Prop :=
  (f.frac_type = .Normal → 1 ≤ f.deno ∧ f.deno ≤ 2147483647 ∧
    1 ≤ f.nume.natAbs ∧ f.nume.natAbs ≤ 2147483647 ∧
    Nat.gcd f.nume.natAbs f.deno.natAbs = 1) ∧
  (f.frac_type = .Zero → f.nume = 0 ∧ f.deno = 1) ∧
  (f.frac_type = .Infinity → f.nume = I32_MAX ∧ f.deno = 1) ∧
  (f.frac_type = .NegInfinity → f.nume = I32_MIN ∧ f.deno = 1) ∧
  (f.frac_type = .NaN → f.nume = 0 ∧ f.deno = 0)

instance (f : Fraction) : Decidable (Inv f) := by
  unfold Inv
  infer_instance

/-- the canonical-form property of §4.1 of the specification for `Normal`
values, exactly as the specification words it. -/
def NormalCanonical (f : Fraction) : Prop :=
  f.frac_type = .Normal →
    0 < f.deno ∧ Nat.gcd f.nume.natAbs f.deno.natAbs = 1 ∧
    f.nume.natAbs ≤ 2 ^ 31 - 1 ∧ f.deno ≤ 2 ^ 31 - 1

end Fraction

/-- the set of `Fraction` values reachable through the public interface:
the named constants, `new`, the `From` conversions, and closure under all
arithmetic operations (including the assignment forms) and the unary
operations. -/
inductive Reachable : Fraction → Prop where
  | infinity : Reachable Fraction.INFINITY
  | neg_infinity : Reachable Fraction.NEG_INFINITY
  | nan : Reachable Fraction.NAN
  | zero : Reachable Fraction.ZERO
  | max : Reachable Fraction.MAX
  | min : Reachable Fraction.MIN
  | min_positive : Reachable Fraction.MIN_POSITIVE
  | of_new : ∀ (n d : Int) (f : Fraction), Fraction.new n d = some f → Reachable f
  | of_from_safe : ∀ v : Int, Reachable (Fraction.from_safe v)
  | of_from_unsigned : ∀ v : Int, Reachable (Fraction.from_unsigned_unchecked v)
  | of_from_signed : ∀ v : Int, Reachable (Fraction.from_signed_unchecked v)
  | of_add : ∀ x y z, Reachable x → Reachable y → Fraction.add x y = some z → Reachable z
  | of_sub : ∀ x y z, Reachable x → Reachable y → Fraction.sub x y = some z → Reachable z
  | of_mul : ∀ x y z, Reachable x → Reachable y → Fraction.mul x y = some z → Reachable z
  | of_div : ∀ x y z, Reachable x → Reachable y → Fraction.div x y = some z → Reachable z
  | of_add_assign : ∀ x y z, Reachable x → Reachable y →
      Fraction.add_assign x y = some z → Reachable z
  | of_sub_assign : ∀ x y z, Reachable x → Reachable y →
      Fraction.sub_assign x y = some z → Reachable z
  | of_mul_assign : ∀ x y z, Reachable x → Reachable y →
      Fraction.mul_assign x y = some z → Reachable z
  | of_div_assign : ∀ x y z, Reachable x → Reachable y →
      Fraction.div_assign x y = some z → Reachable z
  | of_neg : ∀ x, Reachable x → Reachable (Fraction.neg x)
  | of_abs : ∀ x, Reachable x → Reachable (Fraction.abs x)
  | of_reciprocal : ∀ x, Reachable x → Reachable (Fraction.reciprocal x)
  | of_sign : ∀ x, Reachable x → Reachable (Fraction.sign x)


theorem gcdFuel_eq : ∀ (fuel a b : Nat), b < fuel → gcdFuel fuel a b = Nat.gcd a b := by
  intro fuel
  induction fuel with
  | zero => intro a b h; omega
  | succ n ih =>
    intro a b h
    by_cases hb : b = 0
    · simp [gcdFuel, hb]
    · have hlt : a % b < n := by
        have h1 : a % b < b := Nat.mod_lt a (Nat.pos_of_ne_zero hb)
        omega
      simp only [gcdFuel, hb, if_false]
      rw [ih b (a % b) hlt]
      calc Nat.gcd b (a % b) = Nat.gcd (a % b) b := Nat.gcd_comm _ _
        _ = Nat.gcd b a := (Nat.gcd_rec b a).symm
        _ = Nat.gcd a b := Nat.gcd_comm _ _

theorem gcdNat_eq (a b : Nat) : gcdNat a b = Nat.gcd a b :=
  gcdFuel_eq (b + 1) a b (Nat.lt_succ_self b)

theorem tmod_ofNat (m n : Nat) : Int.tmod (m : Int) (n : Int) = ((m % n : Nat) : Int) := rfl

theorem tdiv_ofNat (m n : Nat) : Int.tdiv (m : Int) (n : Int) = ((m / n : Nat) : Int) := rfl

theorem gcdIntFuel_eq : ∀ (fuel : Nat) (a b : Nat), b < fuel →
    gcdIntFuel fuel (a : Int) (b : Int) = ((Nat.gcd a b : Nat) : Int) := by
  intro fuel
  induction fuel with
  | zero => intro a b h; omega
  | succ n ih =>
    intro a b h
    by_cases hb : b = 0
    · subst hb; simp [gcdIntFuel]
    · have hb2 : ((b : Int)) ≠ 0 := by exact_mod_cast hb
      have hlt : a % b < n := by
        have h1 : a % b < b := Nat.mod_lt a (Nat.pos_of_ne_zero hb)
        omega
      simp only [gcdIntFuel, hb2, if_false]
      rw [tmod_ofNat, ih b (a % b) hlt]
      congr 1
      calc Nat.gcd b (a % b) = Nat.gcd (a % b) b := Nat.gcd_comm _ _
        _ = Nat.gcd b a := (Nat.gcd_rec b a).symm
        _ = Nat.gcd a b := Nat.gcd_comm _ _

theorem gcdInt_eq (a b : Nat) : gcdInt (a : Int) (b : Int) = ((Nat.gcd a b : Nat) : Int) := by
  have hb : ((b : Int)).natAbs = b := Int.natAbs_ofNat b
  rw [gcdInt, hb]
  exact gcdIntFuel_eq (b + 1) a b (Nat.lt_succ_self b)

theorem wrap32_eq_self {z : Int} (h1 : -2147483648 ≤ z) (h2 : z ≤ 2147483647) :
    wrap32 z = z := by
  unfold wrap32
  rw [Int.emod_eq_of_lt (by omega) (by omega)]
  omega

theorem wrapU64_eq_toNat {z : Int} (h1 : 0 ≤ z) (h2 : z < 18446744073709551616) :
    (wrapU64 z : Int) = z := by
  unfold wrapU64
  rw [Int.emod_eq_of_lt h1 h2]
  omega

/-- loop invariant of `shrink`'s convergent loop. -/
structure SLInv (N D p0 q0 p1 q1 nume deno : Nat) : Prop where
  repN : p1 * nume + p0 * deno = N
  repD : q1 * nume + q0 * deno = D
  det : p1 * q0 = p0 * q1 + 1 ∨ p0 * q1 = p1 * q0 + 1
  p0le : p0 ≤ LIMITER
  q0le : q0 ≤ LIMITER
  p1le : p1 ≤ LIMITER
  q1le : q1 ≤ LIMITER
  numele : nume ≤ max N D
  denole : deno ≤ D

theorem SLInv.init (N D : Nat) : SLInv N D 0 1 1 0 N D :=
  ⟨by omega, by omega, by omega, Nat.zero_le _, by norm_num [LIMITER],
    by norm_num [LIMITER], Nat.zero_le _, le_max_left N D, le_refl D⟩

theorem sub_div_mul_eq_mod (nume deno : Nat) :
    nume - nume / deno * deno = nume % deno := by
  have h1 := Nat.div_add_mod nume deno
  have h2 : deno * (nume / deno) = nume / deno * deno := Nat.mul_comm _ _
  omega

theorem SLInv.step {N D p0 q0 p1 q1 nume deno : Nat}
    (inv : SLInv N D p0 q0 p1 q1 nume deno) (hd : ¬(deno = 0))
    (hb2 : p0 + nume / deno * p1 ≤ LIMITER) (hb3 : q0 + nume / deno * q1 ≤ LIMITER) :
    SLInv N D p1 q1 (p0 + nume / deno * p1) (q0 + nume / deno * q1) deno
      (nume - nume / deno * deno) := by
  have hqd : nume / deno * deno ≤ nume := Nat.div_mul_le_self nume deno
  have hmod := sub_div_mul_eq_mod nume deno
  have hrlt : nume - nume / deno * deno < deno := by
    rw [hmod]; exact Nat.mod_lt nume (Nat.pos_of_ne_zero hd)
  have hnume : nume / deno * deno + (nume - nume / deno * deno) = nume := by omega
  constructor
  · have e : (p0 + nume / deno * p1) * deno + p1 * (nume - nume / deno * deno)
        = p1 * (nume / deno * deno + (nume - nume / deno * deno)) + p0 * deno := by ring
    rw [e, hnume]; exact inv.repN
  · have e : (q0 + nume / deno * q1) * deno + q1 * (nume - nume / deno * deno)
        = q1 * (nume / deno * deno + (nume - nume / deno * deno)) + q0 * deno := by ring
    rw [e, hnume]; exact inv.repD
  · have e1 : (p0 + nume / deno * p1) * q1 = p0 * q1 + nume / deno * (p1 * q1) := by ring
    have e2 : p1 * (q0 + nume / deno * q1) = p1 * q0 + nume / deno * (p1 * q1) := by ring
    rcases inv.det with hdet | hdet
    · right; omega
    · left; omega
  · exact inv.p1le
  · exact inv.q1le
  · exact hb2
  · exact hb3
  · have h1 := inv.denole
    have h2 := le_max_right N D
    omega
  · have := inv.denole; omega

theorem shrinkLoop_some {N D : Nat} :
    ∀ (fuel p0 q0 p1 q1 nume deno : Nat) (s : ShrinkState),
      shrinkLoop fuel p0 q0 p1 q1 nume deno = some s →
      SLInv N D p0 q0 p1 q1 nume deno →
      SLInv N D s.p0 s.q0 s.p1 s.q1 s.nume s.deno ∧ 1 ≤ s.deno ∧
        (LIMITER < s.p0 + s.nume / s.deno * s.p1 ∨
          LIMITER < s.q0 + s.nume / s.deno * s.q1) := by
  intro fuel
  induction fuel with
  | zero => intro p0 q0 p1 q1 nume deno s h inv; simp [shrinkLoop] at h
  | succ n ih =>
    intro p0 q0 p1 q1 nume deno s h inv
    by_cases hd : deno = 0
    · simp [shrinkLoop, hd] at h
    · simp only [shrinkLoop, hd, if_false] at h
      by_cases hb : LIMITER < p0 + nume / deno * p1 ∨ LIMITER < q0 + nume / deno * q1
      · rw [if_pos hb] at h
        obtain rfl : (⟨p0, q0, p1, q1, nume, deno⟩ : ShrinkState) = s := Option.some.inj h
        exact ⟨inv, Nat.pos_of_ne_zero hd, hb⟩
      · rw [if_neg hb] at h
        push_neg at hb
        exact ih p1 q1 (p0 + nume / deno * p1) (q0 + nume / deno * q1) deno
          (nume - nume / deno * deno) s h (inv.step hd hb.1 hb.2)

theorem shrinkLoop_total {N D : Nat} (hg : Nat.gcd N D = 1)
    (hoob : LIMITER < N ∨ LIMITER < D) :
    ∀ (fuel p0 q0 p1 q1 nume deno : Nat),
      deno < fuel → 1 ≤ deno →
      SLInv N D p0 q0 p1 q1 nume deno →
      (shrinkLoop fuel p0 q0 p1 q1 nume deno).isSome := by
  intro fuel
  induction fuel with
  | zero => intro p0 q0 p1 q1 nume deno hf hd1 inv; omega
  | succ n ih =>
    intro p0 q0 p1 q1 nume deno hf hd1 inv
    have hd : ¬(deno = 0) := by omega
    simp only [shrinkLoop, hd, if_false]
    by_cases hb : LIMITER < p0 + nume / deno * p1 ∨ LIMITER < q0 + nume / deno * q1
    · rw [if_pos hb]; rfl
    · rw [if_neg hb]
      push_neg at hb
      have hqd : nume / deno * deno ≤ nume := Nat.div_mul_le_self nume deno
      have hmod := sub_div_mul_eq_mod nume deno
      have hrlt : nume - nume / deno * deno < deno := by
        rw [hmod]; exact Nat.mod_lt nume (by omega)
      rcases Nat.eq_zero_or_pos (nume - nume / deno * deno) with hr0 | hr1
      · exfalso
        have hnume : nume = nume / deno * deno := by omega
        have hN : N = (p0 + nume / deno * p1) * deno := by
          rw [← inv.repN]
          nth_rewrite 1 [hnume]
          ring
        have hD : D = (q0 + nume / deno * q1) * deno := by
          rw [← inv.repD]
          nth_rewrite 1 [hnume]
          ring
        have hgd : Nat.gcd ((p0 + nume / deno * p1) * deno) ((q0 + nume / deno * q1) * deno)
            = Nat.gcd (p0 + nume / deno * p1) (q0 + nume / deno * q1) * deno :=
          Nat.gcd_mul_right _ _ _
        rw [hN, hD, hgd] at hg
        have hdeno1 : deno = 1 :=
          Nat.dvd_one.mp ⟨Nat.gcd (p0 + nume / deno * p1) (q0 + nume / deno * q1),
            by rw [Nat.mul_comm]; exact hg.symm⟩
        subst hdeno1
        omega
      · exact ih p1 q1 (p0 + nume / deno * p1) (q0 + nume / deno * q1) deno
          (nume - nume / deno * deno) (by omega) hr1 (inv.step hd hb.1 hb.2)

theorem shrinkLoop_break {N D : Nat} (hg : Nat.gcd N D = 1)
    (hoob : LIMITER < N ∨ LIMITER < D) :
    ∃ s : ShrinkState, shrinkLoop (D + 1) 0 1 1 0 N D = some s ∧
      SLInv N D s.p0 s.q0 s.p1 s.q1 s.nume s.deno ∧ 1 ≤ s.deno ∧
      (LIMITER < s.p0 + s.nume / s.deno * s.p1 ∨
        LIMITER < s.q0 + s.nume / s.deno * s.q1) := by
  have hD1 : 1 ≤ D := by
    rcases Nat.eq_zero_or_pos D with h0 | h1
    · exfalso
      subst h0
      rw [Nat.gcd_zero_right] at hg
      subst hg
      simp [LIMITER] at hoob
    · exact h1
  have htot := shrinkLoop_total hg hoob (D + 1) 0 1 1 0 N D (by omega) hD1 (SLInv.init N D)
  obtain ⟨s, hs⟩ := Option.isSome_iff_exists.mp htot
  exact ⟨s, hs, shrinkLoop_some (D + 1) 0 1 1 0 N D s hs (SLInv.init N D)⟩


/-- competitors in the half-plane `v ≤ 0` (multiples of the last convergent
and everything beyond it on that side) deviate at least as much, per
denominator, as the last convergent. -/
theorem cone_left (α β q0 q1 : Nat) (u v : Int) (d' : Nat)
    (hd' : (q1 : Int) * u + q0 * v = d')
    (hv : v ≤ 0) (hβ : 1 ≤ β) (hq1 : 1 ≤ q1) (hd'1 : 1 ≤ d') :
    (β : Int) * d' ≤ |u * β - v * α| * q1 := by
  have hd'z : (1 : Int) ≤ (d' : Int) := by exact_mod_cast hd'1
  have hβz : (1 : Int) ≤ (β : Int) := by exact_mod_cast hβ
  have hq0v : (q0 : Int) * v ≤ 0 :=
    mul_nonpos_of_nonneg_of_nonpos (by positivity) hv
  have hu1 : 1 ≤ u := by
    by_contra hcon
    push_neg at hcon
    have h0 : u ≤ 0 := by omega
    have h1 : (q1 : Int) * u ≤ 0 :=
      mul_nonpos_of_nonneg_of_nonpos (by positivity) h0
    omega
  have hvα : v * (α : Int) ≤ 0 :=
    mul_nonpos_of_nonpos_of_nonneg hv (by positivity)
  have huβ : (1 : Int) * 1 ≤ u * β := mul_le_mul hu1 hβz (by norm_num) (by omega)
  have habs : |u * (β : Int) - v * α| = u * β - v * α := abs_of_nonneg (by omega)
  rw [habs]
  have e1 : (u * (β : Int) - v * α) * q1 = u * β * q1 - v * α * q1 := by ring
  have e2 : (β : Int) * d' = u * β * q1 + β * ((q0 : Int) * v) := by rw [← hd']; ring
  have h3 : (β : Int) * ((q0 : Int) * v) ≤ 0 :=
    mul_nonpos_of_nonneg_of_nonpos (by positivity) hq0v
  have h4 : v * (α : Int) * q1 ≤ 0 :=
    mul_nonpos_of_nonpos_of_nonneg hvα (by positivity)
  omega

/-- competitors in the cone `v ≥ 1`, `u ≤ k v` (the semiconvergent side)
deviate at least as much, per denominator, as the `k`-th semiconvergent. -/
theorem cone_right (α β k q0 q1 : Nat) (u v : Int) (d' : Nat)
    (hd' : (q1 : Int) * u + q0 * v = d')
    (hv : 1 ≤ v) (huk : u ≤ (k : Int) * v)
    (hβ : 1 ≤ β) (hkβ : (k + 1) * β ≤ α) :
    ((α : Int) - k * β) * d' ≤ |u * β - v * α| * ((q0 : Int) + k * q1) := by
  have hβz : (1 : Int) ≤ (β : Int) := by exact_mod_cast hβ
  have hkβz : ((k : Int) + 1) * β ≤ α := by exact_mod_cast hkβ
  have hσ1 : (1 : Int) ≤ (α : Int) - k * β := by
    have e : ((k : Int) + 1) * (β : Int) = k * β + β := by ring
    omega
  have h1 : u * (β : Int) ≤ (k : Int) * v * β :=
    mul_le_mul_of_nonneg_right huk (by positivity)
  have e1 : (k : Int) * v * β - v * α = -(v * ((α : Int) - k * β)) := by ring
  have h2 : (1 : Int) * 1 ≤ v * ((α : Int) - k * β) :=
    mul_le_mul hv hσ1 (by norm_num) (by omega)
  have habs : |u * (β : Int) - v * α| = -(u * β - v * α) := abs_of_neg (by omega)
  rw [habs]
  have hd'le : (d' : Int) ≤ v * ((q0 : Int) + k * q1) := by
    have h3 : (q1 : Int) * u ≤ (q1 : Int) * ((k : Int) * v) :=
      mul_le_mul_of_nonneg_left huk (by positivity)
    have h4 : (q0 : Int) * v ≤ 0 + (q0 : Int) * v := by omega
    have e2 : v * ((q0 : Int) + k * q1) = (q0 : Int) * v + (q1 : Int) * ((k : Int) * v) := by
      ring
    omega
  have hqs : (0 : Int) ≤ (q0 : Int) + k * q1 := by positivity
  calc ((α : Int) - k * β) * d'
      ≤ ((α : Int) - k * β) * (v * ((q0 : Int) + k * q1)) :=
        mul_le_mul_of_nonneg_left hd'le (by omega)
    _ = (v * ((α : Int) - k * β)) * ((q0 : Int) + k * q1) := by ring
    _ ≤ -(u * (β : Int) - v * α) * ((q0 : Int) + k * q1) :=
        mul_le_mul_of_nonneg_right (by omega) hqs

/-- competitors in the cone `v ≥ 1`, `u ≥ k v + 1` dominate the `(k+1)`-st
semiconvergent in both coordinates; since `k` was maximal for the LIMITER
box, they are infeasible. -/
theorem cone_infeasible (p0 p1 q0 q1 k : Nat) (u v : Int) (n' d' : Nat)
    (hu : (p1 : Int) * u + p0 * v = n')
    (hd' : (q1 : Int) * u + q0 * v = d')
    (hv : 1 ≤ v) (huk : (k : Int) * v + 1 ≤ u)
    (hklim : LIMITER < q0 + (k + 1) * q1 ∨ LIMITER < p0 + (k + 1) * p1)
    (hd'L : d' ≤ LIMITER) (hn'L : n' ≤ LIMITER) : False := by
  have h1 : (p1 : Int) * ((k : Int) * v + 1) ≤ p1 * u :=
    mul_le_mul_of_nonneg_left huk (by positivity)
  have h2 : (p0 : Int) * 1 ≤ p0 * v :=
    mul_le_mul_of_nonneg_left hv (by positivity)
  have h3 : (1 : Int) * ((k : Int) * p1) ≤ v * ((k : Int) * p1) :=
    mul_le_mul_of_nonneg_right hv (by positivity)
  have e1 : (p1 : Int) * ((k : Int) * v + 1) = v * ((k : Int) * p1) + p1 := by ring
  have e2 : ((k : Int) + 1) * p1 = (k : Int) * p1 + p1 := by ring
  have hn'big : ((p0 : Int) + ((k : Int) + 1) * p1) ≤ n' := by omega
  have g1 : (q1 : Int) * ((k : Int) * v + 1) ≤ q1 * u :=
    mul_le_mul_of_nonneg_left huk (by positivity)
  have g2 : (q0 : Int) * 1 ≤ q0 * v :=
    mul_le_mul_of_nonneg_left hv (by positivity)
  have g3 : (1 : Int) * ((k : Int) * q1) ≤ v * ((k : Int) * q1) :=
    mul_le_mul_of_nonneg_right hv (by positivity)
  have f1 : (q1 : Int) * ((k : Int) * v + 1) = v * ((k : Int) * q1) + q1 := by ring
  have f2 : ((k : Int) + 1) * q1 = (k : Int) * q1 + q1 := by ring
  have hd'big : ((q0 : Int) + ((k : Int) + 1) * q1) ≤ d' := by omega
  have hd'Lz : (d' : Int) ≤ (LIMITER : Int) := by exact_mod_cast hd'L
  have hn'Lz : (n' : Int) ≤ (LIMITER : Int) := by exact_mod_cast hn'L
  rcases hklim with h | h
  · have hz : ((LIMITER : Int)) < (q0 : Int) + ((k : Int) + 1) * q1 := by exact_mod_cast h
    omega
  · have hz : ((LIMITER : Int)) < (p0 : Int) + ((k : Int) + 1) * p1 := by exact_mod_cast h
    omega

/-- master competitor bound at a break state of `shrink`'s loop: every
feasible competing fraction `n'/d'` is, per denominator, at least as far
from `N/D` as the last convergent `p1/q1` or as the maximal semiconvergent
`(p0 + k p1)/(q0 + k q1)`. -/
theorem shrink_master
    (N D p0 q0 p1 q1 α β k : Nat)
    (hN : ((N : Int)) = p1 * α + p0 * β)
    (hD : ((D : Int)) = q1 * α + q0 * β)
    (ε : Int) (hdet : (p1 : Int) * q0 - p0 * q1 = ε) (hε : ε = 1 ∨ ε = -1)
    (hβ : 1 ≤ β) (hq1 : 1 ≤ q1)
    (hkβ : (k + 1) * β ≤ α)
    (hklim : LIMITER < q0 + (k + 1) * q1 ∨ LIMITER < p0 + (k + 1) * p1)
    (n' d' : Nat) (hd'1 : 1 ≤ d') (hd'L : d' ≤ LIMITER) (hn'L : n' ≤ LIMITER) :
    (β : Int) * d' ≤ |(n' : Int) * D - N * d'| * q1 ∨
      ((α : Int) - k * β) * d' ≤ |(n' : Int) * D - N * d'| * ((q0 : Int) + k * q1) := by
  have hε2 : ε * ε = 1 := by rcases hε with h | h <;> rw [h] <;> norm_num
  set u : Int := ε * ((q0 : Int) * n' - p0 * d') with hu_def
  set v : Int := ε * ((p1 : Int) * d' - q1 * n') with hv_def
  have hu : (p1 : Int) * u + p0 * v = n' := by
    rw [hu_def, hv_def]
    linear_combination (ε * (n' : Int)) * hdet + (n' : Int) * hε2
  have hd' : (q1 : Int) * u + q0 * v = d' := by
    rw [hu_def, hv_def]
    linear_combination (ε * (d' : Int)) * hdet + (d' : Int) * hε2
  have hW : (n' : Int) * D - N * d' = ε * (u * β - v * α) := by
    rw [hu_def, hv_def, hN, hD]
    linear_combination
      (-(((q0 : Int) * n' - p0 * d') * β - ((p1 : Int) * d' - q1 * n') * α)) * hε2
  have habs : |(n' : Int) * D - N * d'| = |u * β - v * α| := by
    rw [hW, abs_mul]
    rcases hε with h | h <;> rw [h] <;> norm_num
  rw [habs]
  rcases lt_trichotomy v 0 with hv | hv | hv
  · exact Or.inl (cone_left α β q0 q1 u v d' hd' (by omega) hβ hq1 hd'1)
  · exact Or.inl (cone_left α β q0 q1 u v d' hd' (by omega) hβ hq1 hd'1)
  · by_cases huk : u ≤ (k : Int) * v
    · exact Or.inr (cone_right α β k q0 q1 u v d' hd' (by omega) huk hβ hkβ)
    · exact absurd (cone_infeasible p0 p1 q0 q1 k u v n' d' hu hd' (by omega)
        (by omega) hklim hd'L hn'L) id

theorem nat_mul_eq_one {a b : Nat} (h : a * b = 1) : a = 1 ∧ b = 1 :=
  ⟨Nat.dvd_one.mp ⟨b, h.symm⟩, Nat.dvd_one.mp ⟨a, by rw [Nat.mul_comm]; exact h.symm⟩⟩

/-- consecutive convergents are coprime: the determinant is `±1`. -/
theorem det_coprime {p0 q0 p1 q1 : Nat}
    (hdet : p1 * q0 = p0 * q1 + 1 ∨ p0 * q1 = p1 * q0 + 1) : Nat.gcd p1 q1 = 1 := by
  have h1 : Nat.gcd p1 q1 ∣ p1 := Nat.gcd_dvd_left _ _
  have h2 : Nat.gcd p1 q1 ∣ q1 := Nat.gcd_dvd_right _ _
  have h3 : Nat.gcd p1 q1 ∣ p1 * q0 := Dvd.dvd.mul_right h1 q0
  have h4 : Nat.gcd p1 q1 ∣ p0 * q1 := Dvd.dvd.mul_left h2 p0
  have h5 : Nat.gcd p1 q1 ∣ 1 := by
    rcases hdet with h | h
    · have hs := Nat.dvd_sub' h3 h4
      rw [h] at hs
      have e : p0 * q1 + 1 - p0 * q1 = 1 := by omega
      rwa [e] at hs
    · have hs := Nat.dvd_sub' h4 h3
      rw [h] at hs
      have e : p1 * q0 + 1 - p1 * q0 = 1 := by omega
      rwa [e] at hs
  exact Nat.dvd_one.mp h5

/-- a semiconvergent is coprime to itself in the pair sense: its two
coordinates share no factor, again by the `±1` determinant. -/
theorem det_coprime_semi {p0 q0 p1 q1 k : Nat}
    (hdet : p1 * q0 = p0 * q1 + 1 ∨ p0 * q1 = p1 * q0 + 1) :
    Nat.gcd (p0 + k * p1) (q0 + k * q1) = 1 := by
  have h1 : Nat.gcd (p0 + k * p1) (q0 + k * q1) ∣ p0 + k * p1 := Nat.gcd_dvd_left _ _
  have h2 : Nat.gcd (p0 + k * p1) (q0 + k * q1) ∣ q0 + k * q1 := Nat.gcd_dvd_right _ _
  have h3 : Nat.gcd (p0 + k * p1) (q0 + k * q1) ∣ (p0 + k * p1) * q1 :=
    Dvd.dvd.mul_right h1 q1
  have h4 : Nat.gcd (p0 + k * p1) (q0 + k * q1) ∣ p1 * (q0 + k * q1) :=
    Dvd.dvd.mul_left h2 p1
  have e1 : (p0 + k * p1) * q1 = p0 * q1 + k * (p1 * q1) := by ring
  have e2 : p1 * (q0 + k * q1) = p1 * q0 + k * (p1 * q1) := by ring
  have h5 : Nat.gcd (p0 + k * p1) (q0 + k * q1) ∣ 1 := by
    rcases hdet with h | h
    · have e3 : p1 * (q0 + k * q1) = (p0 + k * p1) * q1 + 1 := by omega
      have hs := Nat.dvd_sub' h4 h3
      rw [e3] at hs
      have e : (p0 + k * p1) * q1 + 1 - (p0 + k * p1) * q1 = 1 := by omega
      rwa [e] at hs
    · have e3 : (p0 + k * p1) * q1 = p1 * (q0 + k * q1) + 1 := by omega
      have hs := Nat.dvd_sub' h3 h4
      rw [e3] at hs
      have e : p1 * (q0 + k * q1) + 1 - p1 * (q0 + k * q1) = 1 := by omega
      rwa [e] at hs
  exact Nat.dvd_one.mp h5

/-- the main path of `shrinkFinish` (both `q1` and `p1` nonzero): the
returned pair is within bound, coprime, and optimal among bounded
competitors with no larger denominator. -/
theorem shrinkFinish_main
    (N D p0 q0 p1 q1 α β : Nat)
    (inv : SLInv N D p0 q0 p1 q1 α β)
    (hβ : 1 ≤ β)
    (hbr : LIMITER < p0 + α / β * p1 ∨ LIMITER < q0 + α / β * q1)
    (hq1 : ¬(q1 = 0)) (hp1 : ¬(p1 = 0)) :
    ∃ n d : Nat, shrinkFinish N D p0 q0 p1 q1 = (n, d) ∧
      n ≤ LIMITER ∧ 1 ≤ d ∧ d ≤ LIMITER ∧ Nat.gcd n d = 1 ∧ (n = 0 → d = 1) ∧
      ∀ n' d' : Nat, 1 ≤ d' → d' ≤ d → n' ≤ LIMITER →
        ((n : Int) * D - (N : Int) * d).natAbs * d' ≤
          ((n' : Int) * D - (N : Int) * d').natAbs * d := by
  have hq1p : 1 ≤ q1 := Nat.pos_of_ne_zero hq1
  have hp1p : 1 ≤ p1 := Nat.pos_of_ne_zero hp1
  have hβp : 0 < β := hβ
  -- the bound multiplier k and its defining properties
  have hkkq : min ((LIMITER - q0) / q1) ((LIMITER - p0) / p1) ≤ (LIMITER - q0) / q1 :=
    min_le_left _ _
  have hkkp : min ((LIMITER - q0) / q1) ((LIMITER - p0) / p1) ≤ (LIMITER - p0) / p1 :=
    min_le_right _ _
  have hps : p0 + min ((LIMITER - q0) / q1) ((LIMITER - p0) / p1) * p1 ≤ LIMITER := by
    have h1 : min ((LIMITER - q0) / q1) ((LIMITER - p0) / p1) * p1 ≤ LIMITER - p0 :=
      (Nat.le_div_iff_mul_le hp1p).mp hkkp
    have := inv.p0le
    omega
  have hqs : q0 + min ((LIMITER - q0) / q1) ((LIMITER - p0) / p1) * q1 ≤ LIMITER := by
    have h1 : min ((LIMITER - q0) / q1) ((LIMITER - p0) / p1) * q1 ≤ LIMITER - q0 :=
      (Nat.le_div_iff_mul_le hq1p).mp hkkq
    have := inv.q0le
    omega
  have hF1 : min ((LIMITER - q0) / q1) ((LIMITER - p0) / p1) + 1 ≤ α / β := by
    rcases hbr with h | h
    · have h2 : (LIMITER - p0) / p1 < α / β := by
        rw [Nat.div_lt_iff_lt_mul hp1p]
        have := inv.p0le
        omega
      omega
    · have h2 : (LIMITER - q0) / q1 < α / β := by
        rw [Nat.div_lt_iff_lt_mul hq1p]
        have := inv.q0le
        omega
      omega
  have hF2 : (min ((LIMITER - q0) / q1) ((LIMITER - p0) / p1) + 1) * β ≤ α :=
    (Nat.le_div_iff_mul_le hβp).mp hF1
  have hF5 : LIMITER < q0 + (min ((LIMITER - q0) / q1) ((LIMITER - p0) / p1) + 1) * q1 ∨
      LIMITER < p0 + (min ((LIMITER - q0) / q1) ((LIMITER - p0) / p1) + 1) * p1 := by
    have hmin : (LIMITER - q0) / q1 < min ((LIMITER - q0) / q1) ((LIMITER - p0) / p1) + 1 ∨
        (LIMITER - p0) / p1 < min ((LIMITER - q0) / q1) ((LIMITER - p0) / p1) + 1 := by
      omega
    rcases hmin with h | h
    · left
      have h2 : LIMITER - q0 <
          (min ((LIMITER - q0) / q1) ((LIMITER - p0) / p1) + 1) * q1 :=
        (Nat.div_lt_iff_lt_mul hq1p).mp h
      have := inv.q0le
      omega
    · right
      have h2 : LIMITER - p0 <
          (min ((LIMITER - q0) / q1) ((LIMITER - p0) / p1) + 1) * p1 :=
        (Nat.div_lt_iff_lt_mul hp1p).mp h
      have := inv.p0le
      omega
  have hkβle : min ((LIMITER - q0) / q1) ((LIMITER - p0) / p1) * β ≤ α := by
    have e : (min ((LIMITER - q0) / q1) ((LIMITER - p0) / p1) + 1) * β
        = min ((LIMITER - q0) / q1) ((LIMITER - p0) / p1) * β + β := by ring
    omega
  -- signed determinant
  obtain ⟨ε, hdet, hε⟩ : ∃ ε : Int, (p1 : Int) * q0 - p0 * q1 = ε ∧ (ε = 1 ∨ ε = -1) := by
    rcases inv.det with h | h
    · refine ⟨1, ?_, Or.inl rfl⟩
      have hz : ((p1 * q0 : Nat) : Int) = ((p0 * q1 + 1 : Nat) : Int) := by exact_mod_cast h
      push_cast at hz
      omega
    · refine ⟨-1, ?_, Or.inr rfl⟩
      have hz : ((p0 * q1 : Nat) : Int) = ((p1 * q0 + 1 : Nat) : Int) := by exact_mod_cast h
      push_cast at hz
      omega
  have hNz : (N : Int) = (p1 : Int) * α + p0 * β := by exact_mod_cast inv.repN.symm
  have hDz : (D : Int) = (q1 : Int) * α + q0 * β := by exact_mod_cast inv.repD.symm
  -- the two deviations computed by the code
  have hd1 : (p1 : Int) * D - N * q1 = ε * β := by
    rw [hNz, hDz]
    linear_combination (β : Int) * hdet
  have hd1abs : ((p1 : Int) * D - (N : Int) * q1).natAbs = β := by
    rw [hd1]
    rcases hε with h | h <;> rw [h] <;> simp
  set k := min ((LIMITER - q0) / q1) ((LIMITER - p0) / p1) with hk
  have hkc : ((k * β : Nat) : Int) = (k : Int) * β := by push_cast; ring
  have hd2 : ((p0 + k * p1 : Nat) : Int) * D - (N : Int) * ((q0 + k * q1 : Nat) : Int)
      = ε * ((k : Int) * β - α) := by
    push_cast
    rw [hNz, hDz]
    linear_combination ((k : Int) * β - α) * hdet
  have hkβlez : (k : Int) * β ≤ (α : Int) := by
    have := hkβle
    omega
  have hd2abs : (((p0 + k * p1 : Nat) : Int) * D - (N : Int) * ((q0 + k * q1 : Nat) : Int)).natAbs
      = α - k * β := by
    rw [hd2]
    rcases hε with h | h <;> rw [h] <;> omega
  -- evaluate shrinkFinish on the main path and case on the selection
  simp only [shrinkFinish, hq1, hp1, if_false]
  rw [← hk]
  simp only [hd1abs, hd2abs]
  by_cases hsel : β * (q0 + k * q1) ≤ (α - k * β) * q1
  · rw [if_pos hsel]
    refine ⟨p1, q1, rfl, inv.p1le, hq1p, inv.q1le, det_coprime inv.det,
      fun h => absurd h hp1, ?_⟩
    intro n' d' h1 h2 h3
    rw [hd1abs]
    have hd'L : d' ≤ LIMITER := le_trans h2 inv.q1le
    have hm := shrink_master N D p0 q0 p1 q1 α β k hNz hDz ε hdet hε hβ hq1p hF2
      hF5 n' d' h1 hd'L h3
    zify
    rcases hm with hm | hm
    · exact hm
    · have hσpos : (0 : Int) < (α : Int) - k * β := by
        have h4 := hF2
        have e : (k + 1) * β = k * β + β := by ring
        omega
      have hselz : (β : Int) * ((q0 : Int) + k * q1) ≤ ((α : Int) - k * β) * (q1 : Int) := by
        zify [hkβle] at hsel
        linarith [hsel]
      have s1 : (β : Int) * ((((α : Int)) - k * β) * d') ≤
          β * (|(n' : Int) * D - N * d'| * ((q0 : Int) + k * q1)) :=
        mul_le_mul_of_nonneg_left hm (by positivity)
      have s2 : |(n' : Int) * D - N * d'| * ((β : Int) * ((q0 : Int) + k * q1)) ≤
          |(n' : Int) * D - N * d'| * (((α : Int) - k * β) * q1) :=
        mul_le_mul_of_nonneg_left hselz (abs_nonneg _)
      have e1 : (β : Int) * (|(n' : Int) * D - N * d'| * ((q0 : Int) + k * q1)) =
          |(n' : Int) * D - N * d'| * ((β : Int) * ((q0 : Int) + k * q1)) := by ring
      have e2 : |(n' : Int) * D - N * d'| * (((α : Int) - k * β) * q1) =
          ((α : Int) - k * β) * (|(n' : Int) * D - N * d'| * q1) := by ring
      have e3 : (β : Int) * ((((α : Int)) - k * β) * d') =
          ((α : Int) - k * β) * ((β : Int) * d') := by ring
      have s3 : ((α : Int) - k * β) * ((β : Int) * d') ≤
          ((α : Int) - k * β) * (|(n' : Int) * D - N * d'| * q1) := by omega
      exact le_of_mul_le_mul_left s3 hσpos
  · rw [if_neg hsel]
    have hqs1 : 1 ≤ q0 + k * q1 := by
      rcases Nat.eq_zero_or_pos (q0 + k * q1) with h0 | h1
      · exact absurd (by rw [h0, Nat.mul_zero]; exact Nat.zero_le _) hsel
      · exact h1
    have hps0 : p0 + k * p1 = 0 → q0 + k * q1 = 1 := by
      intro h0
      have hp0 : p0 = 0 := by omega
      have hkp1 : k * p1 = 0 := by omega
      have hk0 : k = 0 := by
        rcases Nat.eq_zero_or_pos k with h | h
        · exact h
        · exfalso
          have hkk : 1 * 1 ≤ k * p1 := Nat.mul_le_mul h hp1p
          omega
      rw [hk0]
      rcases inv.det with hdd | hdd
      · rw [hp0] at hdd
        simp only [Nat.zero_mul, Nat.zero_add] at hdd
        have hq01 := (nat_mul_eq_one hdd).2
        omega
      · rw [hp0] at hdd
        simp only [Nat.zero_mul] at hdd
        omega
    refine ⟨p0 + k * p1, q0 + k * q1, rfl, hps, hqs1, hqs,
      det_coprime_semi inv.det, hps0, ?_⟩
    intro n' d' h1 h2 h3
    rw [hd2abs]
    have hd'L : d' ≤ LIMITER := le_trans h2 hqs
    have hm := shrink_master N D p0 q0 p1 q1 α β k hNz hDz ε hdet hε hβ hq1p hF2
      hF5 n' d' h1 hd'L h3
    zify [hkβle]
    rcases hm with hm | hm
    · have hσpos : (0 : Int) < (α : Int) - k * β := by
        have h4 := hF2
        have e : (k + 1) * β = k * β + β := by ring
        omega
      have hselz : ((α : Int) - k * β) * (q1 : Int) ≤ (β : Int) * ((q0 : Int) + k * q1) := by
        have hsel2 : (α - k * β) * q1 < β * (q0 + k * q1) := lt_of_not_le hsel
        zify [hkβle] at hsel2
        linarith [hsel2]
      have hβpos : (0 : Int) < (β : Int) := by exact_mod_cast hβp
      have s1 : ((α : Int) - k * β) * ((β : Int) * d') ≤
          ((α : Int) - k * β) * (|(n' : Int) * D - N * d'| * q1) := by
        have := mul_le_mul_of_nonneg_left hm (le_of_lt hσpos)
        linarith [this]
      have s2 : |(n' : Int) * D - N * d'| * (((α : Int) - k * β) * q1) ≤
          |(n' : Int) * D - N * d'| * ((β : Int) * ((q0 : Int) + k * q1)) :=
        mul_le_mul_of_nonneg_left hselz (abs_nonneg _)
      have e1 : ((α : Int) - k * β) * (|(n' : Int) * D - N * d'| * q1) =
          |(n' : Int) * D - N * d'| * (((α : Int) - k * β) * q1) := by ring
      have e2 : |(n' : Int) * D - N * d'| * ((β : Int) * ((q0 : Int) + k * q1)) =
          (β : Int) * (|(n' : Int) * D - N * d'| * ((q0 : Int) + k * q1)) := by ring
      have e3 : ((α : Int) - k * β) * ((β : Int) * d') =
          (β : Int) * (((α : Int) - k * β) * d') := by ring
      have s3 : (β : Int) * (((α : Int) - k * β) * d') ≤
          (β : Int) * (|(n' : Int) * D - N * d'| * ((q0 : Int) + k * q1)) := by omega
      exact le_of_mul_le_mul_left s3 hβpos
    · exact hm

/-- the `q_1 == 0` early return of `shrinkFinish`: the loop broke at once, so
`N/D ≥ LIMITER + 1`, and `(i32::MAX, 1)` is the best bounded approximation
with denominator 1. -/
theorem shrinkFinish_q1zero
    (N D p0 q0 p1 q1 α β : Nat)
    (inv : SLInv N D p0 q0 p1 q1 α β)
    (hβ : 1 ≤ β)
    (hbr : LIMITER < p0 + α / β * p1 ∨ LIMITER < q0 + α / β * q1)
    (hq1 : q1 = 0) :
    ∃ n d : Nat, shrinkFinish N D p0 q0 p1 q1 = (n, d) ∧
      n ≤ LIMITER ∧ 1 ≤ d ∧ d ≤ LIMITER ∧ Nat.gcd n d = 1 ∧ (n = 0 → d = 1) ∧
      ∀ n' d' : Nat, 1 ≤ d' → d' ≤ d → n' ≤ LIMITER →
        ((n : Int) * D - (N : Int) * d).natAbs * d' ≤
          ((n' : Int) * D - (N : Int) * d').natAbs * d := by
  have hp1q0 : p1 = 1 ∧ q0 = 1 := by
    rcases inv.det with h | h
    · rw [hq1] at h
      simp only [Nat.mul_zero, Nat.zero_add] at h
      exact nat_mul_eq_one h
    · rw [hq1] at h
      simp only [Nat.mul_zero] at h
      omega
  obtain ⟨hp1e, hq0e⟩ := hp1q0
  have hDe : D = β := by
    have h := inv.repD
    rw [hq1, hq0e] at h
    omega
  have hbr1 : LIMITER < p0 + α / β := by
    rcases hbr with h | h
    · rw [hp1e] at h
      omega
    · rw [hq1, hq0e] at h
      simp only [Nat.mul_zero] at h
      norm_num [LIMITER] at h
  have hkey : (LIMITER + 1) * D ≤ N := by
    have h0 := inv.repN
    rw [hp1e] at h0
    have h1 : α / β * β ≤ α := Nat.div_mul_le_self α β
    have h2 : LIMITER + 1 ≤ p0 + α / β := by omega
    have h3 : (LIMITER + 1) * β ≤ (p0 + α / β) * β := Nat.mul_le_mul_right β h2
    have e : (p0 + α / β) * β = p0 * β + α / β * β := by ring
    rw [hDe]
    omega
  unfold shrinkFinish
  rw [if_pos hq1]
  refine ⟨2147483647, 1, rfl, by norm_num [LIMITER], le_refl 1, by norm_num [LIMITER],
    Nat.gcd_one_right _, by omega, ?_⟩
  intro n' d' h1 h2 h3
  have hd'1 : d' = 1 := by omega
  subst hd'1
  have hkz : (2147483648 : Int) * D ≤ N := by
    have h4 := hkey
    norm_num [LIMITER] at h4
    exact_mod_cast h4
  have hn'z : (n' : Int) ≤ 2147483647 := by
    have h4 := h3
    norm_num [LIMITER] at h4
    exact_mod_cast h4
  have hDz1 : (1 : Int) ≤ (D : Int) := by
    rw [hDe]; exact_mod_cast hβ
  have hprod : (n' : Int) * D ≤ 2147483647 * D :=
    mul_le_mul_of_nonneg_right hn'z (by positivity)
  omega

/-- the `p_1 == 0` early return of `shrinkFinish`: the value is below
`1/(LIMITER+1)`, and `(0, 1)` is the best bounded approximation with
denominator 1. -/
theorem shrinkFinish_p1zero
    (N D p0 q0 p1 q1 α β : Nat)
    (inv : SLInv N D p0 q0 p1 q1 α β)
    (hβ : 1 ≤ β)
    (hbr : LIMITER < p0 + α / β * p1 ∨ LIMITER < q0 + α / β * q1)
    (hq1 : ¬(q1 = 0)) (hp1 : p1 = 0) :
    ∃ n d : Nat, shrinkFinish N D p0 q0 p1 q1 = (n, d) ∧
      n ≤ LIMITER ∧ 1 ≤ d ∧ d ≤ LIMITER ∧ Nat.gcd n d = 1 ∧ (n = 0 → d = 1) ∧
      ∀ n' d' : Nat, 1 ≤ d' → d' ≤ d → n' ≤ LIMITER →
        ((n : Int) * D - (N : Int) * d).natAbs * d' ≤
          ((n' : Int) * D - (N : Int) * d').natAbs * d := by
  have hp0q1 : p0 = 1 ∧ q1 = 1 := by
    rcases inv.det with h | h
    · rw [hp1] at h
      simp only [Nat.zero_mul] at h
      omega
    · rw [hp1] at h
      simp only [Nat.zero_mul] at h
      exact nat_mul_eq_one h
  obtain ⟨hp0e, hq1e⟩ := hp0q1
  have hNe : N = β := by
    have h := inv.repN
    rw [hp1, hp0e] at h
    omega
  have hbr2 : LIMITER < q0 + α / β := by
    rcases hbr with h | h
    · rw [hp1, hp0e] at h
      simp only [Nat.mul_zero] at h
      norm_num [LIMITER] at h
    · rw [hq1e] at h
      omega
  have hkey : 2 * N ≤ D := by
    have h0 := inv.repD
    rw [hq1e] at h0
    have h1 : α / β * β ≤ α := Nat.div_mul_le_self α β
    have h2 : 2 ≤ q0 + α / β := by
      have hL : (2 : Nat) ≤ LIMITER + 1 := by norm_num [LIMITER]
      omega
    have h3 : 2 * β ≤ (q0 + α / β) * β := Nat.mul_le_mul_right β h2
    have e : (q0 + α / β) * β = q0 * β + α / β * β := by ring
    rw [hNe]
    omega
  unfold shrinkFinish
  rw [if_neg hq1]
  simp only [if_pos hp1]
  refine ⟨0, 1, rfl, Nat.zero_le _, le_refl 1, by norm_num [LIMITER],
    Nat.gcd_one_right _, fun _ => rfl, ?_⟩
  intro n' d' h1 h2 h3
  have hd'1 : d' = 1 := by omega
  subst hd'1
  have hkz : 2 * (N : Int) ≤ D := by exact_mod_cast hkey
  have hcase : n' = 0 ∨ (D : Int) ≤ (n' : Int) * D := by
    rcases Nat.eq_zero_or_pos n' with h0 | hpos
    · exact Or.inl h0
    · right
      exact le_mul_of_one_le_left (by positivity) (by exact_mod_cast hpos)
  have hNnn : (0 : Int) ≤ (N : Int) := by positivity
  rcases hcase with h0 | hge
  · rw [h0]
  · omega

/-- combined specification of `shrinkFinish` at any break state of the loop:
the returned pair is within bound, has positive denominator, is coprime, and
is optimal among competitors `(n', d')` with `n' ≤ LIMITER` and `d'` no
larger than the returned denominator. -/
theorem shrinkFinish_optimal
    (N D p0 q0 p1 q1 α β : Nat)
    (inv : SLInv N D p0 q0 p1 q1 α β)
    (hβ : 1 ≤ β)
    (hbr : LIMITER < p0 + α / β * p1 ∨ LIMITER < q0 + α / β * q1) :
    ∃ n d : Nat, shrinkFinish N D p0 q0 p1 q1 = (n, d) ∧
      n ≤ LIMITER ∧ 1 ≤ d ∧ d ≤ LIMITER ∧ Nat.gcd n d = 1 ∧ (n = 0 → d = 1) ∧
      ∀ n' d' : Nat, 1 ≤ d' → d' ≤ d → n' ≤ LIMITER →
        ((n : Int) * D - (N : Int) * d).natAbs * d' ≤
          ((n' : Int) * D - (N : Int) * d').natAbs * d := by
  by_cases hq1 : q1 = 0
  · exact shrinkFinish_q1zero N D p0 q0 p1 q1 α β inv hβ hbr hq1
  · by_cases hp1 : p1 = 0
    · exact shrinkFinish_p1zero N D p0 q0 p1 q1 α β inv hβ hbr hq1 hp1
    · exact shrinkFinish_main N D p0 q0 p1 q1 α β inv hβ hbr hq1 hp1

/-- `shrink` on a coprime out-of-bound pair: never panics, and returns a
coprime in-bound pair with positive denominator that is an optimal bounded
approximation among competitors with no larger denominator. -/
theorem shrink_spec (N D : Nat) (hg : Nat.gcd N D = 1)
    (hoob : LIMITER < N ∨ LIMITER < D) :
    ∃ n d : Nat, shrink N D = some (n, d) ∧
      n ≤ LIMITER ∧ 1 ≤ d ∧ d ≤ LIMITER ∧ Nat.gcd n d = 1 ∧ (n = 0 → d = 1) ∧
      ∀ n' d' : Nat, 1 ≤ d' → d' ≤ d → n' ≤ LIMITER →
        ((n : Int) * D - (N : Int) * d).natAbs * d' ≤
          ((n' : Int) * D - (N : Int) * d').natAbs * d := by
  obtain ⟨s, hs, inv', hdeno, hbr⟩ := shrinkLoop_break hg hoob
  obtain ⟨n, d, heval, hrest⟩ :=
    shrinkFinish_optimal N D s.p0 s.q0 s.p1 s.q1 s.nume s.deno inv' hdeno hbr
  refine ⟨n, d, ?_, hrest⟩
  unfold shrink
  rw [if_neg (by omega), hs]
  show some (shrinkFinish N D s.p0 s.q0 s.p1 s.q1) = some (n, d)
  rw [heval]

/-- `shrink` on any coprime pair with positive denominator: returns a coprime
in-bound pair with positive denominator (identity when already in bound). -/
theorem shrink_props (a b : Nat) (hg : Nat.gcd a b = 1) (hb : 1 ≤ b) :
    ∃ n d : Nat, shrink a b = some (n, d) ∧
      n ≤ LIMITER ∧ 1 ≤ d ∧ d ≤ LIMITER ∧ Nat.gcd n d = 1 ∧ (n = 0 → d = 1) ∧
      (a = 0 → n = 0) := by
  by_cases hin : a ≤ LIMITER ∧ b ≤ LIMITER
  · refine ⟨a, b, ?_, hin.1, hb, hin.2, hg, ?_, fun h => h⟩
    · unfold shrink
      rw [if_pos hin]
    · intro h0
      rw [h0] at hg
      simpa using hg
  · obtain ⟨n, d, heval, h1, h2, h3, h4, h5, _⟩ :=
      shrink_spec a b hg (by omega)
    refine ⟨n, d, heval, h1, h2, h3, h4, h5, ?_⟩
    intro ha0
    exfalso
    rw [ha0, Nat.gcd_zero_left] at hg
    subst hg
    simp [LIMITER] at hin
    omega

/-- `shrink` never panics on coprime inputs: the division inside the loop
never sees a zero denominator. -/
theorem shrink_total (a b : Nat) (hg : Nat.gcd a b = 1) : (shrink a b).isSome := by
  by_cases hin : a ≤ LIMITER ∧ b ≤ LIMITER
  · unfold shrink
    rw [if_pos hin]
    rfl
  · rcases Nat.eq_zero_or_pos b with hb0 | hb1
    · exfalso
      rw [hb0, Nat.gcd_zero_right] at hg
      subst hg
      simp [LIMITER] at hin
      omega
    · obtain ⟨n, d, heval, _⟩ := shrink_props a b hg hb1
      rw [heval]
      rfl

namespace Fraction

theorem inv_of_normal {n d : Int} (h1 : 1 ≤ d) (h2 : d ≤ 2147483647)
    (h3 : 1 ≤ n.natAbs) (h4 : n.natAbs ≤ 2147483647)
    (h5 : Nat.gcd n.natAbs d.natAbs = 1) : Inv ⟨n, d, .Normal⟩ :=
  ⟨fun _ => ⟨h1, h2, h3, h4, h5⟩, fun h => by simp at h, fun h => by simp at h,
    fun h => by simp at h, fun h => by simp at h⟩

theorem inv_INFINITY : Inv INFINITY := by decide

theorem inv_NEG_INFINITY : Inv NEG_INFINITY := by decide

theorem inv_NAN : Inv NAN := by decide

theorem inv_ZERO : Inv ZERO := by decide

theorem inv_MAX : Inv MAX := by decide

theorem inv_MIN : Inv MIN := by decide

theorem inv_MIN_POSITIVE : Inv MIN_POSITIVE := by decide

/-- packaging a classified pair: if the raw pair satisfies the canonical
constraints, the struct built with `determine_frac_type` satisfies `Inv`. -/
theorem inv_mk (n d : Int) (hd1 : 1 ≤ d) (hdL : d ≤ 2147483647)
    (hnL : n.natAbs ≤ 2147483647)
    (hg : Nat.gcd n.natAbs d.natAbs = 1) (h0 : n = 0 → d = 1) :
    Inv ⟨n, d, determine_frac_type n d⟩ := by
  by_cases hn0 : n = 0
  · have ht : determine_frac_type n d = .Zero := by
      unfold determine_frac_type
      rw [if_neg (by omega), if_pos hn0]
    rw [ht]
    exact ⟨fun h => by simp at h, fun _ => ⟨hn0, h0 hn0⟩, fun h => by simp at h,
      fun h => by simp at h, fun h => by simp at h⟩
  · by_cases hd1' : d = 1
    · by_cases hmax : n = I32_MAX
      · have ht : determine_frac_type n d = .Infinity := by
          unfold determine_frac_type
          rw [if_neg (by omega), if_neg hn0, if_pos hd1', if_pos hmax]
        rw [ht]
        exact ⟨fun h => by simp at h, fun h => by simp at h, fun _ => ⟨hmax, hd1'⟩,
          fun h => by simp at h, fun h => by simp at h⟩
      · have hmin : ¬(n = I32_MIN) := by
          intro h
          rw [h] at hnL
          norm_num [I32_MIN] at hnL
        have ht : determine_frac_type n d = .Normal := by
          unfold determine_frac_type
          rw [if_neg (by omega), if_neg hn0, if_pos hd1', if_neg hmax, if_neg hmin]
        rw [ht]
        exact inv_of_normal hd1 hdL (by omega) hnL hg
    · have ht : determine_frac_type n d = .Normal := by
        unfold determine_frac_type
        rw [if_neg (by omega), if_neg hn0, if_neg hd1']
      rw [ht]
      exact inv_of_normal hd1 hdL (by omega) hnL hg

/-- packaging a `shrink` result with a sign: the pair produced by the
`Normal` paths of `new`, `normal_add` and `normal_mul`. -/
theorem inv_pack (sn sd : Nat) (sign : Int)
    (hsn : sn ≤ LIMITER) (hsd1 : 1 ≤ sd) (hsdL : sd ≤ LIMITER)
    (hg : Nat.gcd sn sd = 1) (h0 : sn = 0 → sd = 1)
    (hsign : sign = 1 ∨ sign = -1 ∨ sign = 0 ∧ sn = 0) :
    Inv ⟨wrap32 (sn : Int) * sign, wrap32 (sd : Int),
      determine_frac_type (wrap32 (sn : Int) * sign) (wrap32 (sd : Int))⟩ := by
  have hL : LIMITER = 2147483647 := rfl
  have hwn : wrap32 (sn : Int) = (sn : Int) :=
    wrap32_eq_self (by omega) (by omega)
  have hwd : wrap32 (sd : Int) = (sd : Int) :=
    wrap32_eq_self (by omega) (by omega)
  rw [hwn, hwd]
  have habs : ((sn : Int) * sign).natAbs = sn := by
    rcases hsign with h | h | h
    · rw [h]; simp
    · rw [h]; simp
    · rw [h.1, h.2]; simp
  have hdabs : ((sd : Int)).natAbs = sd := Int.natAbs_ofNat sd
  apply inv_mk
  · omega
  · omega
  · omega
  · rw [habs, hdabs]; exact hg
  · intro hz
    have hsn0 : sn = 0 := by
      rcases hsign with hh | hh | hh
      · rw [hh, mul_one] at hz; omega
      · rw [hh] at hz
        omega
      · exact hh.2
    have := h0 hsn0
    omega

end Fraction

theorem sign_pm {n : Int} (h : ¬(n = 0)) : n.sign = 1 ∨ n.sign = -1 :=
  match n, h with
  | .ofNat 0, h => absurd rfl h
  | .ofNat (_ + 1), _ => Or.inl rfl
  | .negSucc _, _ => Or.inr rfl

theorem dft_normal {n d : Int} (h : Fraction.determine_frac_type n d = .Normal) :
    ¬(d = 0) ∧ ¬(n = 0) := by
  unfold Fraction.determine_frac_type at h
  split_ifs at h <;> simp_all

/-- the cofactor triple computed by `lcm` on positive inputs. -/
theorem lcmInt_spec (b d : Int) (hb : 1 ≤ b) (hd : 1 ≤ d) :
    ∃ e f g : Int, lcmInt b d = (e, f, g) ∧
      1 ≤ e ∧ e ≤ d ∧ 1 ≤ f ∧ f ≤ b ∧ 1 ≤ g ∧ f * g = b ∧ e * g = d := by
  obtain ⟨bn, rfl⟩ : ∃ bn : Nat, b = (bn : Int) := ⟨b.toNat, by omega⟩
  obtain ⟨dn, rfl⟩ : ∃ dn : Nat, d = (dn : Int) := ⟨d.toNat, by omega⟩
  have hbn : 1 ≤ bn := by exact_mod_cast hb
  have hdn : 1 ≤ dn := by exact_mod_cast hd
  have hgd1 : 1 ≤ Nat.gcd bn dn := by
    have h0 : 0 < Nat.gcd bn dn := Nat.gcd_pos_of_pos_right _ (by omega)
    omega
  refine ⟨((dn / Nat.gcd bn dn : Nat) : Int), ((bn / Nat.gcd bn dn : Nat) : Int),
    ((Nat.gcd bn dn : Nat) : Int), ?_, ?_, ?_, ?_, ?_, ?_, ?_, ?_⟩
  · simp only [lcmInt, gcdInt_eq]
    rw [tdiv_ofNat, tdiv_ofNat]
  · have h1 : 1 ≤ dn / Nat.gcd bn dn :=
      Nat.div_pos (Nat.le_of_dvd (by omega) (Nat.gcd_dvd_right _ _)) (by omega)
    exact_mod_cast h1
  · have h1 : dn / Nat.gcd bn dn ≤ dn := Nat.div_le_self _ _
    exact_mod_cast h1
  · have h1 : 1 ≤ bn / Nat.gcd bn dn :=
      Nat.div_pos (Nat.le_of_dvd (by omega) (Nat.gcd_dvd_left _ _)) (by omega)
    exact_mod_cast h1
  · have h1 : bn / Nat.gcd bn dn ≤ bn := Nat.div_le_self _ _
    exact_mod_cast h1
  · exact_mod_cast hgd1
  · have h1 : bn / Nat.gcd bn dn * Nat.gcd bn dn = bn :=
      Nat.div_mul_cancel (Nat.gcd_dvd_left _ _)
    exact_mod_cast h1
  · have h1 : dn / Nat.gcd bn dn * Nat.gcd bn dn = dn :=
      Nat.div_mul_cancel (Nat.gcd_dvd_right _ _)
    exact_mod_cast h1

namespace Fraction

/-- `new` is total and always produces an invariant-satisfying value. -/
theorem inv_new (n d : Int) : ∃ f : Fraction, new n d = some f ∧ Inv f := by
  cases ht : determine_frac_type n d with
  | Infinity => exact ⟨INFINITY, by unfold new; rw [ht], inv_INFINITY⟩
  | NegInfinity => exact ⟨NEG_INFINITY, by unfold new; rw [ht], inv_NEG_INFINITY⟩
  | NaN => exact ⟨NAN, by unfold new; rw [ht], inv_NAN⟩
  | Zero => exact ⟨ZERO, by unfold new; rw [ht], inv_ZERO⟩
  | Normal =>
    obtain ⟨hd0, hn0⟩ := dft_normal ht
    have hda : 1 ≤ d.natAbs := by omega
    have hgpos : 0 < Nat.gcd n.natAbs d.natAbs := Nat.gcd_pos_of_pos_right _ hda
    have hcop : Nat.gcd (n.natAbs / Nat.gcd n.natAbs d.natAbs)
        (d.natAbs / Nat.gcd n.natAbs d.natAbs) = 1 :=
      Nat.coprime_div_gcd_div_gcd hgpos
    have hdq : 1 ≤ d.natAbs / Nat.gcd n.natAbs d.natAbs :=
      Nat.div_pos (Nat.le_of_dvd hda (Nat.gcd_dvd_right _ _)) hgpos
    obtain ⟨sn, sd, hs, hsnL, hsd1, hsdL, hsg, hs0, _⟩ :=
      shrink_props (n.natAbs / Nat.gcd n.natAbs d.natAbs)
        (d.natAbs / Nat.gcd n.natAbs d.natAbs) hcop hdq
    have hsign : n.sign * d.sign = 1 ∨ n.sign * d.sign = -1 ∨
        n.sign * d.sign = 0 ∧ sn = 0 := by
      rcases sign_pm hn0 with h1 | h1 <;> rcases sign_pm hd0 with h2 | h2 <;>
        rw [h1, h2] <;> norm_num
    refine ⟨⟨wrap32 (sn : Int) * (n.sign * d.sign), wrap32 (sd : Int),
      determine_frac_type (wrap32 (sn : Int) * (n.sign * d.sign)) (wrap32 (sd : Int))⟩,
      ?_, inv_pack sn sd (n.sign * d.sign) hsnL hsd1 hsdL hsg hs0 hsign⟩
    unfold new
    rw [ht]
    simp only [gcdNat_eq]
    rw [hs]

end Fraction

namespace Fraction

theorem inv_finite_bounds {f : Fraction} (hf : Inv f)
    (ht : f.frac_type = .Normal ∨ f.frac_type = .Zero) :
    1 ≤ f.deno ∧ f.deno ≤ 2147483647 ∧ f.nume.natAbs ≤ 2147483647 := by
  rcases ht with h | h
  · obtain ⟨h1, h2, _, h4, _⟩ := hf.1 h
    exact ⟨h1, h2, h4⟩
  · obtain ⟨h1, h2⟩ := hf.2.1 h
    rw [h1, h2]
    norm_num

/-- the `Normal` path of addition: `normal_add` succeeds on invariant
operands of category `Normal` or `Zero` and produces an invariant pair. -/
theorem normal_add_some (x y : Fraction) (hx : Inv x) (hy : Inv y)
    (htx : x.frac_type = .Normal ∨ x.frac_type = .Zero)
    (hty : y.frac_type = .Normal ∨ y.frac_type = .Zero) :
    ∃ nn dd : Int, normal_add x y = some (nn, dd) ∧
      Inv ⟨nn, dd, determine_frac_type nn dd⟩ := by
  obtain ⟨hbx1, hbxL, hnxL⟩ := inv_finite_bounds hx htx
  obtain ⟨hby1, hbyL, hnyL⟩ := inv_finite_bounds hy hty
  obtain ⟨e, f, g, heq, he1, heD, hf1, hfB, hg1, hfg, heg⟩ :=
    lcmInt_spec x.deno y.deno hbx1 hby1
  have hefg1 : 1 ≤ e * f * g := by
    have h1 : e * f * g = e * (f * g) := by ring
    have h2 : (1 : Int) * 1 ≤ e * (f * g) :=
      mul_le_mul he1 (by omega) (by norm_num) (by omega)
    omega
  have hefgL : e * f * g ≤ 2147483647 * 2147483647 := by
    have h1 : e * f * g = e * (f * g) := by ring
    rw [hfg] at h1
    have h2 : e * x.deno ≤ 2147483647 * 2147483647 :=
      mul_le_mul (by omega) hbxL (by omega) (by norm_num)
    omega
  have hWz : ((wrapU64 (e * f * g) : Nat) : Int) = e * f * g :=
    wrapU64_eq_toNat (by omega) (by norm_num at hefgL ⊢; omega)
  have hW1 : 1 ≤ wrapU64 (e * f * g) := by omega
  simp only [normal_add, heq, gcdNat_eq]
  set u_num := (x.nume * e + y.nume * f).natAbs with hu_def
  set W := wrapU64 (e * f * g) with hW_def
  have hg2 : 0 < Nat.gcd u_num W := Nat.gcd_pos_of_pos_right _ hW1
  have hcop : Nat.gcd (u_num / Nat.gcd u_num W) (W / Nat.gcd u_num W) = 1 :=
    Nat.coprime_div_gcd_div_gcd hg2
  have hWq : 1 ≤ W / Nat.gcd u_num W :=
    Nat.div_pos (Nat.le_of_dvd hW1 (Nat.gcd_dvd_right _ _)) hg2
  obtain ⟨sn, sd, hs, hsnL, hsd1, hsdL, hsg, hs0, hsz⟩ :=
    shrink_props (u_num / Nat.gcd u_num W) (W / Nat.gcd u_num W) hcop hWq
  have hsign : (x.nume * e + y.nume * f).sign = 1 ∨
      (x.nume * e + y.nume * f).sign = -1 ∨
      (x.nume * e + y.nume * f).sign = 0 ∧ sn = 0 := by
    by_cases hnz : x.nume * e + y.nume * f = 0
    · right; right
      constructor
      · rw [hnz]; rfl
      · apply hsz
        rw [hu_def, hnz]
        simp
    · rcases sign_pm hnz with h | h
      · exact Or.inl h
      · exact Or.inr (Or.inl h)
  refine ⟨wrap32 (sn : Int) * (x.nume * e + y.nume * f).sign, wrap32 (sd : Int), ?_,
    inv_pack sn sd ((x.nume * e + y.nume * f).sign) hsnL hsd1 hsdL hsg hs0 hsign⟩
  rw [hs]

end Fraction

namespace Fraction

theorem i32_sign_of_normal {f : Fraction} (ht : f.frac_type = .Normal) :
    i32_sign f = 1 ∨ i32_sign f = -1 := by
  simp only [i32_sign, ht]
  by_cases h : 0 < f.nume
  · simp [h]
  · simp [h]

theorem i32_sign_of_zero {f : Fraction} (ht : f.frac_type = .Zero) :
    i32_sign f = 0 := by
  simp only [i32_sign, ht]

theorem inv_coprime {f : Fraction} (hf : Inv f)
    (ht : f.frac_type = .Normal ∨ f.frac_type = .Zero) :
    Nat.gcd f.nume.natAbs f.deno.natAbs = 1 := by
  rcases ht with h | h
  · exact (hf.1 h).2.2.2.2
  · obtain ⟨h1, h2⟩ := hf.2.1 h
    rw [h1, h2]
    rfl

/-- the `Normal` path of multiplication: `normal_mul` succeeds on invariant
operands of category `Normal` or `Zero` and produces an invariant pair. -/
theorem normal_mul_some (x y : Fraction) (hx : Inv x) (hy : Inv y)
    (htx : x.frac_type = .Normal ∨ x.frac_type = .Zero)
    (hty : y.frac_type = .Normal ∨ y.frac_type = .Zero) :
    ∃ nn dd : Int, normal_mul x y = some (nn, dd) ∧
      Inv ⟨nn, dd, determine_frac_type nn dd⟩ := by
  obtain ⟨hbx1, hbxL, hnxL⟩ := inv_finite_bounds hx htx
  obtain ⟨hby1, hbyL, hnyL⟩ := inv_finite_bounds hy hty
  have hcab : Nat.Coprime x.nume.natAbs x.deno.natAbs := inv_coprime hx htx
  have hccd : Nat.Coprime y.nume.natAbs y.deno.natAbs := inv_coprime hy hty
  have hbpos : 0 < x.deno.natAbs := by omega
  have hdpos : 0 < y.deno.natAbs := by omega
  have hgad : 0 < Nat.gcd x.nume.natAbs y.deno.natAbs :=
    Nat.gcd_pos_of_pos_right _ hdpos
  have hgbc : 0 < Nat.gcd x.deno.natAbs y.nume.natAbs :=
    Nat.gcd_pos_of_pos_left _ hbpos
  simp only [normal_mul, gcdNat_eq]
  set a2 := x.nume.natAbs / Nat.gcd x.nume.natAbs y.deno.natAbs with ha2
  set d2 := y.deno.natAbs / Nat.gcd x.nume.natAbs y.deno.natAbs with hd2
  set b2 := x.deno.natAbs / Nat.gcd x.deno.natAbs y.nume.natAbs with hb2
  set c2 := y.nume.natAbs / Nat.gcd x.deno.natAbs y.nume.natAbs with hc2
  have hda2 : a2 ∣ x.nume.natAbs :=
    ⟨Nat.gcd x.nume.natAbs y.deno.natAbs,
      (Nat.div_mul_cancel (Nat.gcd_dvd_left _ _)).symm⟩
  have hdd2 : d2 ∣ y.deno.natAbs :=
    ⟨Nat.gcd x.nume.natAbs y.deno.natAbs,
      (Nat.div_mul_cancel (Nat.gcd_dvd_right _ _)).symm⟩
  have hdb2 : b2 ∣ x.deno.natAbs :=
    ⟨Nat.gcd x.deno.natAbs y.nume.natAbs,
      (Nat.div_mul_cancel (Nat.gcd_dvd_left _ _)).symm⟩
  have hdc2 : c2 ∣ y.nume.natAbs :=
    ⟨Nat.gcd x.deno.natAbs y.nume.natAbs,
      (Nat.div_mul_cancel (Nat.gcd_dvd_right _ _)).symm⟩
  have ca2d2 : Nat.Coprime a2 d2 := Nat.coprime_div_gcd_div_gcd hgad
  have cb2c2 : Nat.Coprime b2 c2 := Nat.coprime_div_gcd_div_gcd hgbc
  have ca2b2 : Nat.Coprime a2 b2 :=
    Nat.Coprime.coprime_dvd_right hdb2 (Nat.Coprime.coprime_dvd_left hda2 hcab)
  have cc2d2 : Nat.Coprime c2 d2 :=
    Nat.Coprime.coprime_dvd_right hdd2 (Nat.Coprime.coprime_dvd_left hdc2 hccd)
  have hcop : Nat.Coprime (a2 * c2) (b2 * d2) :=
    Nat.Coprime.mul (Nat.Coprime.mul_right ca2b2 ca2d2)
      (Nat.Coprime.mul_right cb2c2.symm cc2d2)
  have hb21 : 1 ≤ b2 := Nat.div_pos (Nat.le_of_dvd hbpos (Nat.gcd_dvd_left _ _)) hgbc
  have hd21 : 1 ≤ d2 := Nat.div_pos (Nat.le_of_dvd hdpos (Nat.gcd_dvd_right _ _)) hgad
  have hbd1 : 1 ≤ b2 * d2 := by
    have := Nat.mul_le_mul hb21 hd21
    omega
  obtain ⟨sn, sd, hs, hsnL, hsd1, hsdL, hsg, hs0, hsz⟩ :=
    shrink_props (a2 * c2) (b2 * d2) hcop hbd1
  have hsign : i32_sign x * i32_sign y = 1 ∨ i32_sign x * i32_sign y = -1 ∨
      i32_sign x * i32_sign y = 0 ∧ sn = 0 := by
    rcases htx with hnx | hzx
    · rcases hty with hny | hzy
      · rcases i32_sign_of_normal hnx with h1 | h1 <;>
          rcases i32_sign_of_normal hny with h2 | h2 <;> rw [h1, h2] <;> norm_num
      · right; right
        refine ⟨by rw [i32_sign_of_zero hzy]; ring, ?_⟩
        apply hsz
        have hc0 : y.nume.natAbs = 0 := by
          have := (hy.2.1 hzy).1
          simp [this]
        have : c2 = 0 := by rw [hc2, hc0]; simp
        rw [this, Nat.mul_zero]
    · right; right
      refine ⟨by rw [i32_sign_of_zero hzx]; ring, ?_⟩
      apply hsz
      have ha0 : x.nume.natAbs = 0 := by
        have := (hx.2.1 hzx).1
        simp [this]
      have : a2 = 0 := by rw [ha2, ha0]; simp
      rw [this, Nat.zero_mul]
  refine ⟨wrap32 (sn : Int) * i32_sign x * i32_sign y, wrap32 (sd : Int), ?_, ?_⟩
  · rw [hs]
  · have e : wrap32 (sn : Int) * i32_sign x * i32_sign y =
        wrap32 (sn : Int) * (i32_sign x * i32_sign y) := mul_assoc _ _ _
    rw [e]
    exact inv_pack sn sd (i32_sign x * i32_sign y) hsnL hsd1 hsdL hsg hs0 hsign

end Fraction

namespace Fraction

theorem get_add_type_cases {x y : Fraction} (h : get_add_type x y = .Normal) :
    (x.frac_type = .Normal ∨ x.frac_type = .Zero) ∧
      (y.frac_type = .Normal ∨ y.frac_type = .Zero) := by
  cases hx : x.frac_type <;> cases hy : y.frac_type <;>
    simp only [get_add_type, hx, hy] at h <;> simp_all

theorem get_mul_type_cases {x y : Fraction} (h : get_mul_type x y = .Normal) :
    x.frac_type = .Normal ∧ y.frac_type = .Normal := by
  cases hx : x.frac_type <;> cases hy : y.frac_type <;>
    simp only [get_mul_type, hx, hy] at h <;> (try split_ifs at h) <;> simp_all

theorem inv_neg {x : Fraction} (hx : Inv x) : Inv (neg x) := by
  cases ht : x.frac_type with
  | Infinity => simp only [neg, ht]; exact inv_NEG_INFINITY
  | NegInfinity => simp only [neg, ht]; exact inv_INFINITY
  | NaN => simp only [neg, ht]; exact inv_NAN
  | Zero => simp only [neg, ht]; exact inv_ZERO
  | Normal =>
    simp only [neg, ht]
    obtain ⟨h1, h2, h3, h4, h5⟩ := hx.1 ht
    refine inv_of_normal h1 h2 ?_ ?_ ?_
    · rw [Int.natAbs_neg]; exact h3
    · rw [Int.natAbs_neg]; exact h4
    · rw [Int.natAbs_neg]; exact h5

theorem inv_abs {x : Fraction} (hx : Inv x) : Inv (abs x) := by
  cases ht : x.frac_type with
  | Infinity => simp only [abs, ht]; exact inv_INFINITY
  | NegInfinity => simp only [abs, ht]; exact inv_INFINITY
  | NaN => simp only [abs, ht]; exact inv_NAN
  | Zero => simp only [abs, ht]; exact inv_ZERO
  | Normal =>
    simp only [abs, ht]
    obtain ⟨h1, h2, h3, h4, h5⟩ := hx.1 ht
    refine inv_of_normal h1 h2 ?_ ?_ ?_
    · rw [Int.natAbs_abs]; exact h3
    · rw [Int.natAbs_abs]; exact h4
    · rw [Int.natAbs_abs]; exact h5

theorem inv_reciprocal {x : Fraction} (hx : Inv x) : Inv (reciprocal x) := by
  cases ht : x.frac_type with
  | Infinity => simp only [reciprocal, ht]; exact inv_ZERO
  | NegInfinity => simp only [reciprocal, ht]; exact inv_ZERO
  | NaN => simp only [reciprocal, ht]; exact inv_NAN
  | Zero => simp only [reciprocal, ht]; exact inv_INFINITY
  | Normal =>
    simp only [reciprocal, ht]
    obtain ⟨h1, h2, h3, h4, h5⟩ := hx.1 ht
    have habs : (|x.deno| * i32_sign x).natAbs = x.deno.natAbs := by
      rcases i32_sign_of_normal ht with h | h <;> rw [h] <;>
        simp [Int.natAbs_abs]
    refine inv_of_normal ?_ ?_ ?_ ?_ ?_
    · rw [Int.abs_eq_natAbs]; omega
    · rw [Int.abs_eq_natAbs]; omega
    · rw [habs]; omega
    · rw [habs]; omega
    · rw [habs, Int.natAbs_abs]
      rw [Nat.gcd_comm]
      exact h5

theorem inv_sign_op {x : Fraction} : Inv (sign x) := by
  cases ht : x.frac_type with
  | Infinity =>
    simp only [sign, ht]
    exact inv_of_normal (by norm_num) (by norm_num) (by norm_num) (by norm_num) (by decide)
  | NegInfinity =>
    simp only [sign, ht]
    exact inv_of_normal (by norm_num) (by norm_num) (by norm_num) (by norm_num) (by decide)
  | NaN => simp only [sign, ht]; exact inv_NAN
  | Zero => simp only [sign, ht]; exact inv_ZERO
  | Normal =>
    simp only [sign, ht]
    by_cases h : 0 ≤ x.nume
    · rw [if_pos h]
      exact inv_of_normal (by norm_num) (by norm_num) (by norm_num) (by norm_num) (by decide)
    · rw [if_neg h]
      exact inv_of_normal (by norm_num) (by norm_num) (by norm_num) (by norm_num) (by decide)

theorem inv_add (x y : Fraction) (hx : Inv x) (hy : Inv y) :
    ∃ z : Fraction, add x y = some z ∧ Inv z := by
  cases hat : get_add_type x y with
  | Infinity => exact ⟨INFINITY, by simp only [add, hat], inv_INFINITY⟩
  | NegInfinity => exact ⟨NEG_INFINITY, by simp only [add, hat], inv_NEG_INFINITY⟩
  | NaN => exact ⟨NAN, by simp only [add, hat], inv_NAN⟩
  | Zero => exact ⟨ZERO, by simp only [add, hat], inv_ZERO⟩
  | Normal =>
    obtain ⟨htx, hty⟩ := get_add_type_cases hat
    obtain ⟨nn, dd, hnorm, hinv⟩ := normal_add_some x y hx hy htx hty
    refine ⟨⟨nn, dd, determine_frac_type nn dd⟩, ?_, hinv⟩
    simp only [add, hat]
    rw [hnorm]

theorem inv_sub (x y : Fraction) (hx : Inv x) (hy : Inv y) :
    ∃ z : Fraction, sub x y = some z ∧ Inv z := by
  unfold sub
  exact inv_add x (neg y) hx (inv_neg hy)

theorem inv_mul (x y : Fraction) (hx : Inv x) (hy : Inv y) :
    ∃ z : Fraction, mul x y = some z ∧ Inv z := by
  cases hat : get_mul_type x y with
  | Infinity => exact ⟨INFINITY, by simp only [mul, hat], inv_INFINITY⟩
  | NegInfinity => exact ⟨NEG_INFINITY, by simp only [mul, hat], inv_NEG_INFINITY⟩
  | NaN => exact ⟨NAN, by simp only [mul, hat], inv_NAN⟩
  | Zero => exact ⟨ZERO, by simp only [mul, hat], inv_ZERO⟩
  | Normal =>
    obtain ⟨htx, hty⟩ := get_mul_type_cases hat
    obtain ⟨nn, dd, hnorm, hinv⟩ := normal_mul_some x y hx hy (Or.inl htx) (Or.inl hty)
    refine ⟨⟨nn, dd, determine_frac_type nn dd⟩, ?_, hinv⟩
    simp only [mul, hat]
    rw [hnorm]

theorem inv_div (x y : Fraction) (hx : Inv x) (hy : Inv y) :
    ∃ z : Fraction, div x y = some z ∧ Inv z := by
  unfold div
  exact inv_mul x (reciprocal y) hx (inv_reciprocal hy)

theorem inv_add_assign (x y : Fraction) (hx : Inv x) (hy : Inv y) :
    ∃ z : Fraction, add_assign x y = some z ∧ Inv z := by
  cases hat : get_add_type x y with
  | Infinity => exact ⟨INFINITY, by simp only [add_assign, hat], inv_INFINITY⟩
  | NegInfinity => exact ⟨NEG_INFINITY, by simp only [add_assign, hat], inv_NEG_INFINITY⟩
  | NaN => exact ⟨NAN, by simp only [add_assign, hat], inv_NAN⟩
  | Zero => exact ⟨ZERO, by simp only [add_assign, hat], inv_ZERO⟩
  | Normal =>
    obtain ⟨htx, hty⟩ := get_add_type_cases hat
    obtain ⟨nn, dd, hnorm, hinv⟩ := normal_add_some x y hx hy htx hty
    refine ⟨⟨nn, dd, determine_frac_type nn dd⟩, ?_, hinv⟩
    simp only [add_assign, hat]
    rw [hnorm]

theorem inv_sub_assign (x y : Fraction) (hx : Inv x) (hy : Inv y) :
    ∃ z : Fraction, sub_assign x y = some z ∧ Inv z := by
  unfold sub_assign
  exact inv_add_assign x (neg y) hx (inv_neg hy)

theorem inv_mul_assign (x y : Fraction) (hx : Inv x) (hy : Inv y) :
    ∃ z : Fraction, mul_assign x y = some z ∧ Inv z := by
  cases hat : get_add_type x y with
  | Infinity => exact ⟨INFINITY, by simp only [mul_assign, hat], inv_INFINITY⟩
  | NegInfinity => exact ⟨NEG_INFINITY, by simp only [mul_assign, hat], inv_NEG_INFINITY⟩
  | NaN => exact ⟨NAN, by simp only [mul_assign, hat], inv_NAN⟩
  | Zero => exact ⟨ZERO, by simp only [mul_assign, hat], inv_ZERO⟩
  | Normal =>
    obtain ⟨htx, hty⟩ := get_add_type_cases hat
    obtain ⟨nn, dd, hnorm, hinv⟩ := normal_mul_some x y hx hy htx hty
    refine ⟨⟨nn, dd, determine_frac_type nn dd⟩, ?_, hinv⟩
    simp only [mul_assign, hat]
    rw [hnorm]

theorem inv_div_assign (x y : Fraction) (hx : Inv x) (hy : Inv y) :
    ∃ z : Fraction, div_assign x y = some z ∧ Inv z := by
  unfold div_assign
  exact inv_mul_assign x (reciprocal y) hx (inv_reciprocal hy)

end Fraction

theorem wrap32_range (z : Int) : -2147483648 ≤ wrap32 z ∧ wrap32 z ≤ 2147483647 := by
  unfold wrap32
  have h1 : 0 ≤ (z + 2147483648) % 4294967296 :=
    Int.emod_nonneg _ (by norm_num)
  have h2 : (z + 2147483648) % 4294967296 < 4294967296 :=
    Int.emod_lt_of_pos _ (by norm_num)
  omega

namespace Fraction

theorem dft_normal_one {n : Int} (h : determine_frac_type n 1 = .Normal) :
    ¬(n = 0) ∧ ¬(n = I32_MAX) ∧ ¬(n = I32_MIN) := by
  unfold determine_frac_type at h
  split_ifs at h <;> simp_all

theorem inv_from_safe (v : Int) : Inv (from_safe v) := by
  cases ht : determine_frac_type (wrap32 v) 1 with
  | Infinity => simp only [from_safe, ht]; exact inv_NAN
  | NegInfinity => simp only [from_safe, ht]; exact inv_NAN
  | NaN => simp only [from_safe, ht]; exact inv_NAN
  | Zero => simp only [from_safe, ht]; exact inv_ZERO
  | Normal =>
    simp only [from_safe, ht]
    obtain ⟨h0, hmax, hmin⟩ := dft_normal_one ht
    obtain ⟨hr1, hr2⟩ := wrap32_range v
    refine inv_of_normal (by norm_num) (by norm_num) ?_ ?_ (Nat.gcd_one_right _)
    · omega
    · norm_num [I32_MAX, I32_MIN] at hmax hmin
      omega

theorem inv_from_unsigned_unchecked (v : Int) : Inv (from_unsigned_unchecked v) := by
  cases ht : determine_frac_type (wrap32 v) 1 with
  | Infinity => simp only [from_unsigned_unchecked, ht]; exact inv_INFINITY
  | NegInfinity => simp only [from_unsigned_unchecked, ht]; exact inv_NAN
  | NaN => simp only [from_unsigned_unchecked, ht]; exact inv_NAN
  | Zero => simp only [from_unsigned_unchecked, ht]; exact inv_ZERO
  | Normal =>
    simp only [from_unsigned_unchecked, ht]
    obtain ⟨h0, hmax, hmin⟩ := dft_normal_one ht
    obtain ⟨hr1, hr2⟩ := wrap32_range v
    refine inv_of_normal (by norm_num) (by norm_num) ?_ ?_ (Nat.gcd_one_right _)
    · omega
    · norm_num [I32_MAX, I32_MIN] at hmax hmin
      omega

theorem inv_from_signed_unchecked (v : Int) : Inv (from_signed_unchecked v) := by
  cases ht : determine_frac_type (wrap32 v) 1 with
  | Infinity => simp only [from_signed_unchecked, ht]; exact inv_INFINITY
  | NegInfinity => simp only [from_signed_unchecked, ht]; exact inv_NEG_INFINITY
  | NaN => simp only [from_signed_unchecked, ht]; exact inv_NAN
  | Zero => simp only [from_signed_unchecked, ht]; exact inv_ZERO
  | Normal =>
    simp only [from_signed_unchecked, ht]
    obtain ⟨h0, hmax, hmin⟩ := dft_normal_one ht
    obtain ⟨hr1, hr2⟩ := wrap32_range v
    refine inv_of_normal (by norm_num) (by norm_num) ?_ ?_ (Nat.gcd_one_right _)
    · omega
    · norm_num [I32_MAX, I32_MIN] at hmax hmin
      omega

end Fraction

/-- every reachable value satisfies the structural invariant. -/
theorem reachable_inv : ∀ f : Fraction, Reachable f → Fraction.Inv f := by
  intro f h
  induction h with
  | infinity => exact Fraction.inv_INFINITY
  | neg_infinity => exact Fraction.inv_NEG_INFINITY
  | nan => exact Fraction.inv_NAN
  | zero => exact Fraction.inv_ZERO
  | max => exact Fraction.inv_MAX
  | min => exact Fraction.inv_MIN
  | min_positive => exact Fraction.inv_MIN_POSITIVE
  | of_new n d f h =>
    obtain ⟨f2, hf2, hi⟩ := Fraction.inv_new n d
    obtain rfl := Option.some.inj (h.symm.trans hf2)
    exact hi
  | of_from_safe v => exact Fraction.inv_from_safe v
  | of_from_unsigned v => exact Fraction.inv_from_unsigned_unchecked v
  | of_from_signed v => exact Fraction.inv_from_signed_unchecked v
  | of_add x y z hx hy hz ihx ihy =>
    obtain ⟨z2, hz2, hi⟩ := Fraction.inv_add x y ihx ihy
    obtain rfl := Option.some.inj (hz.symm.trans hz2)
    exact hi
  | of_sub x y z hx hy hz ihx ihy =>
    obtain ⟨z2, hz2, hi⟩ := Fraction.inv_sub x y ihx ihy
    obtain rfl := Option.some.inj (hz.symm.trans hz2)
    exact hi
  | of_mul x y z hx hy hz ihx ihy =>
    obtain ⟨z2, hz2, hi⟩ := Fraction.inv_mul x y ihx ihy
    obtain rfl := Option.some.inj (hz.symm.trans hz2)
    exact hi
  | of_div x y z hx hy hz ihx ihy =>
    obtain ⟨z2, hz2, hi⟩ := Fraction.inv_div x y ihx ihy
    obtain rfl := Option.some.inj (hz.symm.trans hz2)
    exact hi
  | of_add_assign x y z hx hy hz ihx ihy =>
    obtain ⟨z2, hz2, hi⟩ := Fraction.inv_add_assign x y ihx ihy
    obtain rfl := Option.some.inj (hz.symm.trans hz2)
    exact hi
  | of_sub_assign x y z hx hy hz ihx ihy =>
    obtain ⟨z2, hz2, hi⟩ := Fraction.inv_sub_assign x y ihx ihy
    obtain rfl := Option.some.inj (hz.symm.trans hz2)
    exact hi
  | of_mul_assign x y z hx hy hz ihx ihy =>
    obtain ⟨z2, hz2, hi⟩ := Fraction.inv_mul_assign x y ihx ihy
    obtain rfl := Option.some.inj (hz.symm.trans hz2)
    exact hi
  | of_div_assign x y z hx hy hz ihx ihy =>
    obtain ⟨z2, hz2, hi⟩ := Fraction.inv_div_assign x y ihx ihy
    obtain rfl := Option.some.inj (hz.symm.trans hz2)
    exact hi
  | of_neg x hx ihx => exact Fraction.inv_neg ihx
  | of_abs x hx ihx => exact Fraction.inv_abs ihx
  | of_reciprocal x hx ihx => exact Fraction.inv_reciprocal ihx
  | of_sign x hx ihx => exact Fraction.inv_sign_op

/-! ## Characterizations used by the claim theorems -/

namespace Fraction

/-- `Inv` implies the specification's canonical-form property for `Normal`. -/
theorem inv_normal_canonical {f : Fraction} (hf : Inv f) : NormalCanonical f := by
  intro ht
  obtain ⟨h1, h2, _, h4, h5⟩ := hf.1 ht
  have e1 : (2 : Nat) ^ 31 - 1 = 2147483647 := by norm_num
  have e2 : (2 : Int) ^ 31 - 1 = 2147483647 := by norm_num
  exact ⟨by omega, h5, by omega, by omega⟩

/-- every invariant value has `|nume| ≤ 2^31` and `|deno| ≤ 2^31`. -/
theorem inv_natAbs_bounds {f : Fraction} (hf : Inv f) :
    f.nume.natAbs ≤ 2147483648 ∧ f.deno.natAbs ≤ 2147483648 := by
  obtain ⟨hN, hZ, hI, hNI, hNaN⟩ := hf
  cases ht : f.frac_type
  case Normal =>
    obtain ⟨h1, h2, h3, h4, _⟩ := hN ht
    omega
  case Infinity =>
    obtain ⟨h1, h2⟩ := hI ht
    rw [h1, h2]; decide
  case NegInfinity =>
    obtain ⟨h1, h2⟩ := hNI ht
    rw [h1, h2]; decide
  case Zero =>
    obtain ⟨h1, h2⟩ := hZ ht
    rw [h1, h2]; decide
  case NaN =>
    obtain ⟨h1, h2⟩ := hNaN ht
    rw [h1, h2]; decide

/-- the truncated integer part of a finite invariant value fits in `i32`. -/
theorem inv_tdiv_bound {f : Fraction} (hf : Inv f)
    (ht : f.frac_type = .Normal ∨ f.frac_type = .Zero) :
    (Int.tdiv f.nume f.deno).natAbs ≤ 2147483647 := by
  obtain ⟨_, _, hn⟩ := inv_finite_bounds hf ht
  have h1 : (Int.tdiv f.nume f.deno).natAbs ≤ f.nume.natAbs := by
    rw [Int.natAbs_tdiv]
    exact Nat.div_le_self _ _
  omega

/-- when `determine_frac_type` classifies a pair as `Normal`. -/
theorem dft_eq_normal_iff (n d : Int) :
    determine_frac_type n d = .Normal ↔
      ¬(d = 0) ∧ ¬(n = 0) ∧ (d = 1 → ¬(n = I32_MAX) ∧ ¬(n = I32_MIN)) := by
  unfold determine_frac_type
  split_ifs <;> simp_all

/-- `determine_frac_type` at denominator `1`, as an explicit classification. -/
theorem dft_one_eq (w : Int) :
    determine_frac_type w 1 =
      if w = 0 then .Zero
      else if w = I32_MAX then .Infinity
      else if w = I32_MIN then .NegInfinity
      else .Normal := by
  unfold determine_frac_type
  norm_num

end Fraction

/-! ## The claim theorems -/

/-- **C2** (code bug): `mul_assign` dispatches on the addition category table
`get_add_type`, not on `get_mul_type`, so the compound assignment diverges
from the binary operator: `INFINITY * ZERO` is `NAN` while
`INFINITY *= ZERO` leaves `INFINITY`. -/
theorem c2_mul_assign_divergence :
    Fraction.mul Fraction.INFINITY Fraction.ZERO = some Fraction.NAN ∧
    Fraction.mul_assign Fraction.INFINITY Fraction.ZERO = some Fraction.INFINITY ∧
    Fraction.INFINITY ≠ Fraction.NAN := by decide

/-- **C4** (code bug): the `(Normal, NegInfinity)` arm of `partial_cmp`
returns `Less`, so the finite value `1/2` compares less than `NEG_INFINITY`
in both argument orders, where the claim requires `Greater` when the finite
value stands on the left. -/
theorem c4_partial_cmp_neginf_bug :
    Fraction.new 1 2 = some ⟨1, 2, FType.Normal⟩ ∧
    Fraction.fracCmp ⟨1, 2, FType.Normal⟩ Fraction.NEG_INFINITY = some Ordering.lt ∧
    Fraction.fracCmp Fraction.NEG_INFINITY ⟨1, 2, FType.Normal⟩ = some Ordering.lt := by
  decide

/-- **C10** (confirmed): the two `Normal` fractions `155937625/24970004` and
`2103597937/336845254` are structurally different, yet their difference —
passed through `normal_add`'s exact `i64` arithmetic and then `shrink`'s
bounded approximation — is exactly `ZERO`. -/
theorem c10_structural_vs_zero_difference :
    Fraction.new 155937625 24970004 = some ⟨155937625, 24970004, FType.Normal⟩ ∧
    Fraction.new 2103597937 336845254 = some ⟨2103597937, 336845254, FType.Normal⟩ ∧
    (⟨155937625, 24970004, FType.Normal⟩ : Fraction) ≠
      ⟨2103597937, 336845254, FType.Normal⟩ ∧
    Fraction.sub ⟨155937625, 24970004, FType.Normal⟩
      ⟨2103597937, 336845254, FType.Normal⟩ = some Fraction.ZERO := by decide

/-- **C1**, counterexample to the claim as worded: on the coprime
out-of-bound pair `(4294967297, 2)` `shrink` returns `(2147483647, 1)`, yet
the competitor `(2147483648, 1)` — same denominator, numerator just beyond
`LIMITER` — has strictly smaller cross-multiplied deviation, so the claim
fails without a bound on the competitor numerator. -/
theorem c1_counterexample :
    Nat.gcd 4294967297 2 = 1 ∧ LIMITER < 4294967297 ∧
    shrink 4294967297 2 = some (2147483647, 1) ∧
    ((2147483648 : Int) * 2 - 4294967297 * 1).natAbs * 1 <
      ((2147483647 : Int) * 2 - 4294967297 * 1).natAbs * 1 := by decide

/-- **C5**, counterexample to the claim as worded: `reciprocal` keeps the
stored tag, so the reciprocal of the reachable value `MIN_POSITIVE`
(`1/i32::MAX`) stores the pair `(i32::MAX, 1)` with tag `Normal` — the
pair-to-tag direction of the `Infinity` sentinel equivalence fails. -/
theorem c5_counterexample :
    Reachable (Fraction.reciprocal Fraction.MIN_POSITIVE) ∧
    Fraction.reciprocal Fraction.MIN_POSITIVE = ⟨I32_MAX, 1, FType.Normal⟩ ∧
    (Fraction.reciprocal Fraction.MIN_POSITIVE).frac_type ≠ FType.Infinity :=
  ⟨Reachable.of_reciprocal _ Reachable.min_positive, by decide, by decide⟩

/-- **C6**, counterexample to the claim as worded: at `d = 0` the two sides
classify to different infinities, `new(1, -0) = INFINITY` while
`new(-1, 0) = NEG_INFINITY`. -/
theorem c6_counterexample :
    Fraction.new 1 (-0) = some Fraction.INFINITY ∧
    Fraction.new (-1) 0 = some Fraction.NEG_INFINITY ∧
    Fraction.INFINITY ≠ Fraction.NEG_INFINITY := by decide

/-- **C7**, counterexample to the claim as worded: the unsigned-unsafe
`From` family maps the sentinel magnitude `i32::MIN` to `NAN` (not
`NegInfinity`), and maps the out-of-`i32`-range source `2^32 + 5` to the
`Normal` value `5/1` after wrapping (not `NaN`). -/
theorem c7_counterexample :
    Fraction.from_unsigned_unchecked I32_MIN = Fraction.NAN ∧
    Fraction.NAN.frac_type ≠ FType.NegInfinity ∧
    Fraction.from_unsigned_unchecked 4294967301 = ⟨5, 1, FType.Normal⟩ ∧
    FType.Normal ≠ FType.NaN := by decide

/-- **C1** (corrected, amended form): the optimality guarantee of `shrink`
holds once the competitor numerator is also bounded by `LIMITER` (the claim
as worded omits that bound, and `c1_counterexample` refutes it): on a
coprime out-of-bound pair `(N, D)`, `shrink` returns `(n, d)` with
`n ≤ LIMITER`, `d ≤ LIMITER`, and every `(n', d')` with `1 ≤ d' ≤ d`,
`d' ≤ LIMITER`, `n' ≤ LIMITER` deviates from `N/D` at least as much
(deviations compared exactly by cross-multiplication). -/
theorem c1_shrink_optimality (N D : Nat) (hg : Nat.gcd N D = 1)
    (hoob : LIMITER < N ∨ LIMITER < D) :
    ∃ n d : Nat, shrink N D = some (n, d) ∧ n ≤ LIMITER ∧ d ≤ LIMITER ∧
      ∀ n' d' : Nat, 1 ≤ d' → d' ≤ d → d' ≤ LIMITER → n' ≤ LIMITER →
        ((n : Int) * (D : Int) - (N : Int) * (d : Int)).natAbs * d' ≤
          ((n' : Int) * (D : Int) - (N : Int) * (d' : Int)).natAbs * d := by
  obtain ⟨n, d, h1, h2, _, h4, _, _, h7⟩ := shrink_spec N D hg hoob
  exact ⟨n, d, h1, h2, h4, fun n' d' ha hb _ hd => h7 n' d' ha hb hd⟩

/-- witness for `c1_shrink_optimality` at the concrete pair `(4294967297, 3)`. -/
theorem c1_witness :
    Nat.gcd 4294967297 3 = 1 ∧ (LIMITER < 4294967297 ∨ LIMITER < 3) ∧
    (∃ n d : Nat, shrink 4294967297 3 = some (n, d) ∧ n ≤ LIMITER ∧ d ≤ LIMITER ∧
      ∀ n' d' : Nat, 1 ≤ d' → d' ≤ d → d' ≤ LIMITER → n' ≤ LIMITER →
        ((n : Int) * ((3 : Nat) : Int) - ((4294967297 : Nat) : Int) * (d : Int)).natAbs * d' ≤
          ((n' : Int) * ((3 : Nat) : Int) - ((4294967297 : Nat) : Int) * (d' : Int)).natAbs * d) :=
  ⟨by decide, Or.inl (by decide),
    c1_shrink_optimality 4294967297 3 (by decide) (Or.inl (by decide))⟩

/-- **C3** (confirmed): every fraction produced by `new`, by an arithmetic
operation (or its assignment form) on invariant operands, or by a unary
operation on an invariant operand, satisfies the canonical-form property
when its category is `Normal`: positive denominator, fully reduced, and
both magnitudes within `2^31 - 1`. -/
theorem c3_canonical_form :
    (∀ (n d : Int) (f : Fraction), Fraction.new n d = some f →
      Fraction.NormalCanonical f) ∧
    (∀ x y z : Fraction, Fraction.Inv x → Fraction.Inv y →
      (Fraction.add x y = some z ∨ Fraction.sub x y = some z ∨
       Fraction.mul x y = some z ∨ Fraction.div x y = some z ∨
       Fraction.add_assign x y = some z ∨ Fraction.sub_assign x y = some z ∨
       Fraction.mul_assign x y = some z ∨ Fraction.div_assign x y = some z) →
      Fraction.NormalCanonical z) ∧
    (∀ x : Fraction, Fraction.Inv x →
      Fraction.NormalCanonical (Fraction.neg x) ∧
      Fraction.NormalCanonical (Fraction.abs x) ∧
      Fraction.NormalCanonical (Fraction.reciprocal x)) := by
  have get : ∀ {w : Option Fraction} {z : Fraction}, w = some z →
      (∃ z' : Fraction, w = some z' ∧ Fraction.Inv z') →
      Fraction.NormalCanonical z := by
    rintro w z rfl ⟨z', hz', hinv⟩
    obtain rfl := Option.some.inj hz'
    exact Fraction.inv_normal_canonical hinv
  refine ⟨?_, ?_, ?_⟩
  · intro n d f hf
    exact get hf (Fraction.inv_new n d)
  · intro x y z hx hy hop
    rcases hop with h | h | h | h | h | h | h | h
    exacts [get h (Fraction.inv_add x y hx hy), get h (Fraction.inv_sub x y hx hy),
      get h (Fraction.inv_mul x y hx hy), get h (Fraction.inv_div x y hx hy),
      get h (Fraction.inv_add_assign x y hx hy), get h (Fraction.inv_sub_assign x y hx hy),
      get h (Fraction.inv_mul_assign x y hx hy), get h (Fraction.inv_div_assign x y hx hy)]
  · intro x hx
    exact ⟨Fraction.inv_normal_canonical (Fraction.inv_neg hx),
      Fraction.inv_normal_canonical (Fraction.inv_abs hx),
      Fraction.inv_normal_canonical (Fraction.inv_reciprocal hx)⟩

/-- witness for `c3_canonical_form` at `new 4 6 = 2/3`. -/
theorem c3_witness :
    Fraction.new 4 6 = some ⟨2, 3, FType.Normal⟩ ∧
    Fraction.NormalCanonical ⟨2, 3, FType.Normal⟩ :=
  ⟨by decide, c3_canonical_form.1 4 6 ⟨2, 3, FType.Normal⟩ (by decide)⟩

/-- **C5** (corrected, amended form): for every reachable value the tag
determines the stored pair for the special categories, and the pair
determines the tag for `(0, 0)` and `(i32::MIN, 1)`; the converse for
`(i32::MAX, 1)` fails (`c5_counterexample`), so only these directions
remain. -/
theorem c5_sentinel_representation (f : Fraction) (h : Reachable f) :
    (f.frac_type = FType.Infinity → f.nume = I32_MAX ∧ f.deno = 1) ∧
    (f.frac_type = FType.NegInfinity → f.nume = I32_MIN ∧ f.deno = 1) ∧
    (f.frac_type = FType.NaN → f.nume = 0 ∧ f.deno = 0) ∧
    (f.nume = 0 ∧ f.deno = 0 → f.frac_type = FType.NaN) ∧
    (f.nume = I32_MIN ∧ f.deno = 1 → f.frac_type = FType.NegInfinity) := by
  obtain ⟨hN, hZ, hI, hNI, hNaN⟩ := reachable_inv f h
  refine ⟨hI, hNI, hNaN, ?_, ?_⟩
  · rintro ⟨h0, h0d⟩
    cases ht : f.frac_type
    case Normal =>
      obtain ⟨_, _, h3, _, _⟩ := hN ht
      rw [h0] at h3
      simp at h3
    case Zero =>
      obtain ⟨_, h2⟩ := hZ ht
      rw [h2] at h0d
      exact absurd h0d (by decide)
    case Infinity =>
      obtain ⟨h1, _⟩ := hI ht
      rw [h1] at h0
      exact absurd h0 (by decide)
    case NegInfinity =>
      obtain ⟨h1, _⟩ := hNI ht
      rw [h1] at h0
      exact absurd h0 (by decide)
    case NaN => rfl
  · rintro ⟨hmin, h1d⟩
    cases ht : f.frac_type
    case Normal =>
      obtain ⟨_, _, _, h4, _⟩ := hN ht
      rw [hmin] at h4
      exact absurd h4 (by decide)
    case Zero =>
      obtain ⟨h1, _⟩ := hZ ht
      rw [h1] at hmin
      exact absurd hmin (by decide)
    case Infinity =>
      obtain ⟨h1, _⟩ := hI ht
      rw [h1] at hmin
      exact absurd hmin (by decide)
    case NegInfinity => rfl
    case NaN =>
      obtain ⟨_, h2⟩ := hNaN ht
      rw [h2] at h1d
      exact absurd h1d (by decide)

/-- witness for `c5_sentinel_representation` at the reachable constant `NAN`. -/
theorem c5_witness :
    Reachable Fraction.NAN ∧
    (Fraction.NAN.nume = 0 ∧ Fraction.NAN.deno = 0 →
      Fraction.NAN.frac_type = FType.NaN) :=
  ⟨Reachable.nan, (c5_sentinel_representation Fraction.NAN Reachable.nan).2.2.2.1⟩

/-- **C6** (corrected, amended form): sign normalization
`new(n, -d) = new(-n, d)` holds for all in-range `n, d` once `d = 0` is
excluded (`-0` flips the infinity classification, `c6_counterexample`) along
with `n = i32::MIN` and `d = i32::MIN` (whose negations overflow `i32`). -/
theorem c6_sign_normalization (n d : Int)
    (hn1 : -2147483648 ≤ n) (hn2 : n ≤ 2147483647)
    (hd1 : -2147483648 ≤ d) (hd2 : d ≤ 2147483647)
    (hd0 : d ≠ 0) (hnmin : n ≠ I32_MIN) (hdmin : d ≠ I32_MIN) :
    Fraction.new n (-d) = Fraction.new (-n) d := by
  have eMax : I32_MAX = (2147483647 : Int) := rfl
  have eMin : I32_MIN = (-2147483648 : Int) := rfl
  by_cases hn0 : n = 0
  · subst hn0
    rw [neg_zero]
    have hL : Fraction.determine_frac_type 0 (-d) = .Zero := by
      unfold Fraction.determine_frac_type
      rw [if_neg (show ¬(-d = 0) by omega), if_pos rfl]
    have hR : Fraction.determine_frac_type 0 d = .Zero := by
      unfold Fraction.determine_frac_type
      rw [if_neg hd0, if_pos rfl]
    simp only [Fraction.new, hL, hR]
  · by_cases hA : n = I32_MAX ∧ d = -1
    · obtain ⟨rfl, rfl⟩ := hA
      decide
    · by_cases hB : n = -I32_MAX ∧ d = 1
      · obtain ⟨rfl, rfl⟩ := hB
        decide
      · have htL : Fraction.determine_frac_type n (-d) = .Normal := by
          rw [Fraction.dft_eq_normal_iff]
          exact ⟨by omega, hn0,
            fun h1 => ⟨fun hmax => hA ⟨hmax, by omega⟩, fun hmin => hnmin hmin⟩⟩
        have htR : Fraction.determine_frac_type (-n) d = .Normal := by
          rw [Fraction.dft_eq_normal_iff]
          exact ⟨hd0, by omega,
            fun h1 => ⟨fun hmax => hB ⟨by omega, h1⟩, fun hmin => by omega⟩⟩
        simp only [Fraction.new, htL, htR, Int.natAbs_neg, Int.sign_neg,
          mul_neg, neg_mul]

/-- witness for `c6_sign_normalization` at `n = 3`, `d = 2`. -/
theorem c6_witness :
    ((2 : Int) ≠ 0) ∧ ((3 : Int) ≠ I32_MIN) ∧ ((2 : Int) ≠ I32_MIN) ∧
    Fraction.new 3 (-2) = Fraction.new (-3) 2 :=
  ⟨by decide, by decide, by decide,
    c6_sign_normalization 3 2 (by decide) (by decide) (by decide) (by decide)
      (by decide) (by decide) (by decide)⟩

/-- **C7** (corrected, amended form): conversion from 32-bit and wider
integers is wrap-then-classify.  Writing `w` for the wrapped (`as i32`)
source value: the unsigned-unsafe family (`i32`, `u32`, `u64`, `u128`) maps
`w = 0` to `ZERO`, `w = i32::MAX` to `INFINITY`, `w = i32::MIN` to `NAN`,
and any other `w` to the `Normal` value `w/1`; the signed-unsafe family
(`i64`, `i128`) maps `w = i32::MIN` to `NEG_INFINITY` instead.  Values
outside the `i32` range are wrapped, not mapped to `NaN`
(`c7_counterexample`). -/
theorem c7_conversion_classification (v : Int) :
    (Fraction.from_unsigned_unchecked v =
      if wrap32 v = 0 then Fraction.ZERO
      else if wrap32 v = I32_MAX then Fraction.INFINITY
      else if wrap32 v = I32_MIN then Fraction.NAN
      else ⟨wrap32 v, 1, FType.Normal⟩) ∧
    (Fraction.from_signed_unchecked v =
      if wrap32 v = 0 then Fraction.ZERO
      else if wrap32 v = I32_MAX then Fraction.INFINITY
      else if wrap32 v = I32_MIN then Fraction.NEG_INFINITY
      else ⟨wrap32 v, 1, FType.Normal⟩) := by
  constructor
  · simp only [Fraction.from_unsigned_unchecked]
    rw [Fraction.dft_one_eq]
    split_ifs <;> rfl
  · simp only [Fraction.from_signed_unchecked]
    rw [Fraction.dft_one_eq]
    split_ifs <;> rfl

/-- **C8** (confirmed): the `TryFrom` trichotomy.  For every invariant
fraction: `NaNConversion` exactly on `NaN`, `InfiniteConversion` exactly on
the two infinities, `OutOfRangeError` exactly when the source is finite and
its toward-zero-truncated integer part falls outside the target range, and
otherwise success with that truncated part (`Zero` converts to `0`).  The
lower-capacity family is parameterized by its range `[tmin, tmax]` (every
instantiated target contains `0`); the unsigned greater-capacity targets
have `tmax ≥ i32::MAX`, which makes the code's missing upper check
harmless; the signed greater-capacity targets always fit, so they never
return `OutOfRangeError`. -/
theorem c8_try_from_trichotomy (f : Fraction) (hf : Fraction.Inv f) :
    (∀ tmin tmax : Int, tmin ≤ 0 → 0 ≤ tmax →
      ((Fraction.try_from_lower tmin tmax f = .error .NaNConversion ↔
          f.frac_type = FType.NaN) ∧
       (Fraction.try_from_lower tmin tmax f = .error .InfiniteConversion ↔
          (f.frac_type = FType.Infinity ∨ f.frac_type = FType.NegInfinity)) ∧
       (Fraction.try_from_lower tmin tmax f = .error .OutOfRangeError ↔
          ((f.frac_type = FType.Normal ∨ f.frac_type = FType.Zero) ∧
            ¬(tmin ≤ Int.tdiv f.nume f.deno ∧ Int.tdiv f.nume f.deno ≤ tmax))) ∧
       ((f.frac_type = FType.Normal ∨ f.frac_type = FType.Zero) →
          tmin ≤ Int.tdiv f.nume f.deno → Int.tdiv f.nume f.deno ≤ tmax →
          Fraction.try_from_lower tmin tmax f = .ok (Int.tdiv f.nume f.deno)))) ∧
    (∀ tmax : Int, 2147483647 ≤ tmax →
      ((Fraction.try_from_unsigned_greater f = .error .NaNConversion ↔
          f.frac_type = FType.NaN) ∧
       (Fraction.try_from_unsigned_greater f = .error .InfiniteConversion ↔
          (f.frac_type = FType.Infinity ∨ f.frac_type = FType.NegInfinity)) ∧
       (Fraction.try_from_unsigned_greater f = .error .OutOfRangeError ↔
          ((f.frac_type = FType.Normal ∨ f.frac_type = FType.Zero) ∧
            ¬(0 ≤ Int.tdiv f.nume f.deno ∧ Int.tdiv f.nume f.deno ≤ tmax))) ∧
       ((f.frac_type = FType.Normal ∨ f.frac_type = FType.Zero) →
          0 ≤ Int.tdiv f.nume f.deno →
          Fraction.try_from_unsigned_greater f = .ok (Int.tdiv f.nume f.deno)))) ∧
    (((f.frac_type = FType.Normal ∨ f.frac_type = FType.Zero) →
        -2147483648 ≤ Int.tdiv f.nume f.deno ∧ Int.tdiv f.nume f.deno ≤ 2147483647 ∧
        Fraction.try_from_signed_greater f = .ok (Int.tdiv f.nume f.deno)) ∧
     (Fraction.try_from_signed_greater f = .error .NaNConversion ↔
        f.frac_type = FType.NaN) ∧
     (Fraction.try_from_signed_greater f = .error .InfiniteConversion ↔
        (f.frac_type = FType.Infinity ∨ f.frac_type = FType.NegInfinity)) ∧
     ¬(Fraction.try_from_signed_greater f = .error .OutOfRangeError)) := by
  refine ⟨?_, ?_, ?_⟩
  · intro tmin tmax hmin hmax
    cases ht : f.frac_type
    case Normal =>
      simp only [Fraction.try_from_lower, ht]
      by_cases hc : tmin ≤ Int.tdiv f.nume f.deno ∧ Int.tdiv f.nume f.deno ≤ tmax
      · rw [if_pos hc]
        exact ⟨by simp, by simp, by simp [hc], fun _ _ _ => rfl⟩
      · rw [if_neg hc]
        exact ⟨by simp, by simp, by simp [hc], fun _ h1 h2 => absurd ⟨h1, h2⟩ hc⟩
    case Zero =>
      obtain ⟨h0, h1⟩ := hf.2.1 ht
      simp only [Fraction.try_from_lower, ht]
      rw [h0, h1]
      simp only [Int.zero_tdiv]
      exact ⟨by simp, by simp, by simp [hmin, hmax], fun _ _ _ => trivial⟩
    case Infinity =>
      simp only [Fraction.try_from_lower, ht]
      exact ⟨by simp, by simp, by simp, by simp⟩
    case NegInfinity =>
      simp only [Fraction.try_from_lower, ht]
      exact ⟨by simp, by simp, by simp, by simp⟩
    case NaN =>
      simp only [Fraction.try_from_lower, ht]
      exact ⟨by simp, by simp, by simp, by simp⟩
  · intro tmax htmax
    cases ht : f.frac_type
    case Normal =>
      have hib : Int.tdiv f.nume f.deno ≤ tmax := by
        have hb := Fraction.inv_tdiv_bound hf (Or.inl ht)
        omega
      simp only [Fraction.try_from_unsigned_greater, ht]
      by_cases hc : 0 ≤ Int.tdiv f.nume f.deno
      · rw [if_pos hc]
        exact ⟨by simp, by simp, by simp [hc, hib], fun _ _ => rfl⟩
      · rw [if_neg hc]
        exact ⟨by simp, by simp, by simp [hc], fun _ h => absurd h hc⟩
    case Zero =>
      obtain ⟨h0, h1⟩ := hf.2.1 ht
      simp only [Fraction.try_from_unsigned_greater, ht]
      rw [h0, h1]
      simp only [Int.zero_tdiv]
      exact ⟨by simp, by simp, by simp [show (0 : Int) ≤ tmax by omega],
        fun _ _ => trivial⟩
    case Infinity =>
      simp only [Fraction.try_from_unsigned_greater, ht]
      exact ⟨by simp, by simp, by simp, by simp⟩
    case NegInfinity =>
      simp only [Fraction.try_from_unsigned_greater, ht]
      exact ⟨by simp, by simp, by simp, by simp⟩
    case NaN =>
      simp only [Fraction.try_from_unsigned_greater, ht]
      exact ⟨by simp, by simp, by simp, by simp⟩
  · cases ht : f.frac_type
    case Normal =>
      have hb := Fraction.inv_tdiv_bound hf (Or.inl ht)
      simp only [Fraction.try_from_signed_greater, ht]
      exact ⟨fun _ => ⟨by omega, by omega, trivial⟩, by simp, by simp, by simp⟩
    case Zero =>
      obtain ⟨h0, h1⟩ := hf.2.1 ht
      simp only [Fraction.try_from_signed_greater, ht]
      rw [h0, h1]
      simp only [Int.zero_tdiv]
      exact ⟨fun _ => ⟨by norm_num, by norm_num, trivial⟩, by simp, by simp, by simp⟩
    case Infinity =>
      simp only [Fraction.try_from_signed_greater, ht]
      exact ⟨by simp, by simp, by simp, by simp⟩
    case NegInfinity =>
      simp only [Fraction.try_from_signed_greater, ht]
      exact ⟨by simp, by simp, by simp, by simp⟩
    case NaN =>
      simp only [Fraction.try_from_signed_greater, ht]
      exact ⟨by simp, by simp, by simp, by simp⟩

/-- witness for `c8_try_from_trichotomy` at `-3/2` (as in the repository's
readme test: `i32::try_from(new(-3, 2)) == Ok(-1)`). -/
theorem c8_witness :
    Fraction.Inv ⟨-3, 2, FType.Normal⟩ ∧
    (-2147483648 ≤ Int.tdiv (-3) 2 ∧ Int.tdiv (-3) 2 ≤ 2147483647 ∧
      Fraction.try_from_signed_greater ⟨-3, 2, FType.Normal⟩ =
        .ok (Int.tdiv (-3) 2)) :=
  ⟨by decide,
    (c8_try_from_trichotomy ⟨-3, 2, FType.Normal⟩ (by decide)).2.2.1 (Or.inl rfl)⟩

/-- **C9** (confirmed): panic freedom.  `shrink` is total on every coprime
pair (the loop's division never sees a zero denominator and the fuel bound
is never reached); the loop state handed to `shrinkFinish` keeps all four
convergent coordinates within `LIMITER` (so `LIMITER - q_0`, `LIMITER - p_0`
never underflow) with a positive denominator; the `i128` deviation products
of `shrinkFinish`, the `i64` intermediates of `normal_add` and of
`partial_cmp`, and the `u64` products of `normal_mul` all stay strictly
inside their machine ranges on invariant operands; and `new` and all eight
binary operations are total on invariant operands. -/
theorem c9_no_panic :
    (∀ a b : Nat, Nat.gcd a b = 1 → (shrink a b).isSome) ∧
    (∀ N D : Nat, ∀ s : ShrinkState, shrinkLoop (D + 1) 0 1 1 0 N D = some s →
      s.p0 ≤ LIMITER ∧ s.q0 ≤ LIMITER ∧ s.p1 ≤ LIMITER ∧ s.q1 ≤ LIMITER ∧
      1 ≤ s.deno) ∧
    (∀ N D p q e : Nat, N ≤ 2 ^ 63 → D ≤ 2 ^ 63 → p ≤ LIMITER → q ≤ LIMITER →
      e ≤ LIMITER →
      ((p : Int) * (D : Int) - (N : Int) * (q : Int)).natAbs * e < 2 ^ 127) ∧
    (∀ x y : Fraction, Fraction.Inv x → Fraction.Inv y →
      (x.frac_type = FType.Normal ∨ x.frac_type = FType.Zero) →
      (y.frac_type = FType.Normal ∨ y.frac_type = FType.Zero) →
      ∀ e f g : Int, lcmInt x.deno y.deno = (e, f, g) →
        (x.nume * e).natAbs < 2 ^ 63 ∧ (y.nume * f).natAbs < 2 ^ 63 ∧
        (x.nume * e + y.nume * f).natAbs < 2 ^ 63 ∧
        0 ≤ e * f * g ∧ e * f * g < 2 ^ 63) ∧
    (∀ x y : Fraction, Fraction.Inv x → Fraction.Inv y →
      (x.nume.natAbs / gcdNat x.nume.natAbs y.deno.natAbs) *
        (y.nume.natAbs / gcdNat x.deno.natAbs y.nume.natAbs) < 2 ^ 64 ∧
      (x.deno.natAbs / gcdNat x.deno.natAbs y.nume.natAbs) *
        (y.deno.natAbs / gcdNat x.nume.natAbs y.deno.natAbs) < 2 ^ 64) ∧
    (∀ x y : Fraction, Fraction.Inv x → Fraction.Inv y →
      (x.nume * y.deno).natAbs < 2 ^ 63 ∧ (x.deno * y.nume).natAbs < 2 ^ 63) ∧
    (∀ n d : Int, (Fraction.new n d).isSome) ∧
    (∀ x y : Fraction, Fraction.Inv x → Fraction.Inv y →
      (Fraction.add x y).isSome ∧ (Fraction.sub x y).isSome ∧
      (Fraction.mul x y).isSome ∧ (Fraction.div x y).isSome ∧
      (Fraction.add_assign x y).isSome ∧ (Fraction.sub_assign x y).isSome ∧
      (Fraction.mul_assign x y).isSome ∧ (Fraction.div_assign x y).isSome) := by
  have opt : ∀ {w : Option Fraction},
      (∃ z : Fraction, w = some z ∧ Fraction.Inv z) → w.isSome := by
    rintro w ⟨z, rfl, _⟩
    rfl
  refine ⟨fun a b hg => shrink_total a b hg, ?_, ?_, ?_, ?_, ?_, ?_, ?_⟩
  · intro N D s hs
    obtain ⟨inv', hd, _⟩ :=
      shrinkLoop_some (N := N) (D := D) (D + 1) 0 1 1 0 N D s hs (SLInv.init N D)
    exact ⟨inv'.p0le, inv'.q0le, inv'.p1le, inv'.q1le, hd⟩
  · intro N D p q e hN hD hp hq he
    have hL : LIMITER = 2147483647 := rfl
    have h1 : ((p : Int) * (D : Int) - (N : Int) * (q : Int)).natAbs ≤
        p * D + N * q := by
      calc ((p : Int) * (D : Int) - (N : Int) * (q : Int)).natAbs
          ≤ ((p : Int) * (D : Int)).natAbs + ((N : Int) * (q : Int)).natAbs :=
            Int.natAbs_sub_le _ _
        _ = p * D + N * q := by
            rw [Int.natAbs_mul, Int.natAbs_mul]
            simp
    have h2 : p * D ≤ 2147483647 * 2 ^ 63 := Nat.mul_le_mul (by omega) hD
    have h3 : N * q ≤ 2 ^ 63 * 2147483647 := Nat.mul_le_mul hN (by omega)
    calc ((p : Int) * (D : Int) - (N : Int) * (q : Int)).natAbs * e
        ≤ (2147483647 * 2 ^ 63 + 2 ^ 63 * 2147483647) * 2147483647 :=
          Nat.mul_le_mul (by omega) (by omega)
      _ < 2 ^ 127 := by norm_num
  · intro x y hx hy htx hty e f g heq
    obtain ⟨hbx1, hbxL, hnxL⟩ := Fraction.inv_finite_bounds hx htx
    obtain ⟨hby1, hbyL, hnyL⟩ := Fraction.inv_finite_bounds hy hty
    obtain ⟨e', f', g', heq', he1, heD, hf1, hfB, hg1, hfg, heg⟩ :=
      lcmInt_spec x.deno y.deno hbx1 hby1
    rw [heq'] at heq
    obtain ⟨rfl, rfl, rfl⟩ : e' = e ∧ f' = f ∧ g' = g := by
      simpa using heq
    have hxe : (x.nume * e').natAbs ≤ 2147483647 * 2147483647 := by
      rw [Int.natAbs_mul]
      exact Nat.mul_le_mul hnxL (by omega)
    have hyf : (y.nume * f').natAbs ≤ 2147483647 * 2147483647 := by
      rw [Int.natAbs_mul]
      exact Nat.mul_le_mul hnyL (by omega)
    have hsum : (x.nume * e' + y.nume * f').natAbs ≤
        (x.nume * e').natAbs + (y.nume * f').natAbs := Int.natAbs_add_le _ _
    have hefg : e' * f' * g' = e' * x.deno := by
      rw [mul_assoc, hfg]
    refine ⟨by norm_num at hxe ⊢; omega, by norm_num at hyf ⊢; omega,
      by norm_num at hxe hyf ⊢; omega, ?_, ?_⟩
    · rw [hefg]
      positivity
    · rw [hefg]
      calc e' * x.deno ≤ 2147483647 * 2147483647 :=
            mul_le_mul (by omega) (by omega) (by omega) (by omega)
        _ < 2 ^ 63 := by norm_num
  · intro x y hx hy
    obtain ⟨hxn, hxd⟩ := Fraction.inv_natAbs_bounds hx
    obtain ⟨hyn, hyd⟩ := Fraction.inv_natAbs_bounds hy
    constructor
    · calc (x.nume.natAbs / gcdNat x.nume.natAbs y.deno.natAbs) *
            (y.nume.natAbs / gcdNat x.deno.natAbs y.nume.natAbs)
          ≤ 2147483648 * 2147483648 :=
            Nat.mul_le_mul (le_trans (Nat.div_le_self _ _) hxn)
              (le_trans (Nat.div_le_self _ _) hyn)
        _ < 2 ^ 64 := by norm_num
    · calc (x.deno.natAbs / gcdNat x.deno.natAbs y.nume.natAbs) *
            (y.deno.natAbs / gcdNat x.nume.natAbs y.deno.natAbs)
          ≤ 2147483648 * 2147483648 :=
            Nat.mul_le_mul (le_trans (Nat.div_le_self _ _) hxd)
              (le_trans (Nat.div_le_self _ _) hyd)
        _ < 2 ^ 64 := by norm_num
  · intro x y hx hy
    obtain ⟨hxn, hxd⟩ := Fraction.inv_natAbs_bounds hx
    obtain ⟨hyn, hyd⟩ := Fraction.inv_natAbs_bounds hy
    constructor
    · rw [Int.natAbs_mul]
      calc x.nume.natAbs * y.deno.natAbs ≤ 2147483648 * 2147483648 :=
            Nat.mul_le_mul hxn hyd
        _ < 2 ^ 63 := by norm_num
    · rw [Int.natAbs_mul]
      calc x.deno.natAbs * y.nume.natAbs ≤ 2147483648 * 2147483648 :=
            Nat.mul_le_mul hxd hyn
        _ < 2 ^ 63 := by norm_num
  · intro n d
    obtain ⟨z, hz, _⟩ := Fraction.inv_new n d
    rw [hz]
    rfl
  · intro x y hx hy
    exact ⟨opt (Fraction.inv_add x y hx hy), opt (Fraction.inv_sub x y hx hy),
      opt (Fraction.inv_mul x y hx hy), opt (Fraction.inv_div x y hx hy),
      opt (Fraction.inv_add_assign x y hx hy), opt (Fraction.inv_sub_assign x y hx hy),
      opt (Fraction.inv_mul_assign x y hx hy), opt (Fraction.inv_div_assign x y hx hy)⟩
